import Mathlib

/-
Verification of the mini-ipam-driver repository: a shallow embedding of the
bytop byte-arithmetic primitives (package bytop) and of the LocalAllocator
buddy pool / address allocator (package allocator), together with theorems
settling the specification claims about them.

Modelling conventions:
* A Go byte slice is a `List Nat`; each entry is meant to be a byte value
  (< 256), carried as a hypothesis (`bytesWf`) where it matters.
* A Go run-time panic (out-of-range index, nil dereference) is modelled by a
  distinguished `crash` result.
* Go's `map[string]bool` keyed by `net.IPNet.String()` / `net.IP.String()`
  text is modelled by a list of structured keys; the constructors mirror the
  three injective text shapes ("a.b.c.d/L" for canonical masks, hex form for
  non-canonical masks, and "a.b.c.d" for plain addresses), which never
  collide with each other.
-/

set_option maxRecDepth 10000

namespace Ipam

/-- Byte sequences: a Go byte slice modelled as a list of naturals. -/
abbrev Bytes := List Nat

/-- Every entry of the sequence is in byte range. -/
def bytesWf (l : Bytes) : Prop := ∀ b ∈ l, b < 256

instance bytesWf.dec (l : Bytes) : Decidable (bytesWf l) := by
  unfold bytesWf; infer_instance

/-! ### bytop primitives (bytop package)

Source: the bytop package of the repository (`Not`, `And`, `Or`, `Add`,
`Equal`, `FlipBit`).  `Not`/`And`/`Or` are modelled with a nil destination,
which is how every call site in the allocator invokes them. -/

/-- bytop.Not with nil destination: pointwise complement of each byte
(`dst[i] = ^a[i]`; on byte values, complement is 255 - b). -/
def goNot (a : Bytes) : Bytes := a.map (fun b => 255 - b % 256)

/-- bytop.And with nil destination: the result has length `max`; each
position starts at 0xFF and is ANDed with whichever operands reach it. -/
def goAnd (a b : Bytes) : Bytes :=
  (List.range (max a.length b.length)).map (fun i => a.getD i 255 &&& b.getD i 255)

/-- bytop.Or with nil destination: the result has length `max`; each
position starts at 0x00 and is ORed with whichever operands reach it. -/
def goOr (a b : Bytes) : Bytes :=
  (List.range (max a.length b.length)).map (fun i => a.getD i 0 ||| b.getD i 0)

/-- bytop.Equal: lengths must match and entries be pointwise equal. -/
def goEqual : Bytes → Bytes → Bool
  | [], [] => true
  | a :: as', b :: bs' => a == b && goEqual as' bs'
  | _, _ => false

/-- bytop.FlipBit: toggles the bit at byte `index / 8`, bit position
`7 - index % 8` inside that byte (bits counted from the most significant).
Call sites keep `index` in range (Go panics otherwise). -/
def flipBit (index : Nat) (s : Bytes) : Bytes :=
  s.set (index / 8) (s.getD (index / 8) 0 ^^^ 1 <<< (7 - index % 8))

/-- Result of bytop.Add: either a normal return or a run-time panic
(index out of range).  `crash` carries the destination bytes written before
the faulting access, which are observable because `Add` is called in place. -/
inductive AddRes
  | ok (dst : Bytes)
  | crash (dst : Bytes)
deriving DecidableEq

/-- Accumulator update of one iteration of bytop.Add:
`carry += uint32(int32(a[i]) + n)`.  The signed addition wraps in `int32`
and the `uint32` conversion reinterprets the bits, which together amount to
`(a[i] + n) mod 2^32`; the `uint32` addition to `carry` also wraps. -/
def addAcc (carry ai : Nat) (n : Int) : Nat :=
  (carry + ((Int.ofNat ai + n).emod (2 ^ 32)).toNat) % 2 ^ 32

/-- Go loop of bytop.Add, indexed by the current counter value.  The counter
`i` is a `uint32`, so the condition `i >= 0` always holds and the loop
leaves only by a panic: after the iteration at `i = 0`, `i--` wraps the
counter to `2^32 - 1`, and since a Go slice is far shorter than that, the
next access `a[i]` is out of range (the `crash` results).  Each iteration
stores `dst[i] = byte(carry % 0xFF)` and keeps `carry / 0xFF`. -/
def addLoop (a : Bytes) (n : Int) : Nat → Bytes → Nat → AddRes
  | 0, dst, carry =>
    match a[0]? with
    | none => AddRes.crash dst
    | some ai => AddRes.crash (dst.set 0 (addAcc carry ai n % 0xFF))
  | i + 1, dst, carry =>
    match a[i + 1]? with
    | none => AddRes.crash dst
    | some ai =>
      addLoop a n i (dst.set (i + 1) (addAcc carry ai n % 0xFF)) (addAcc carry ai n / 0xFF)

/-- bytop.Add(a, n, dst).  All allocator call sites use the in-place form
`Add(ip, 1, ip)`; since iteration `i` reads `a[i]` before writing `dst[i]`
and never revisits an index, the in-place call behaves like the copying
one, so a single functional definition covers both. -/
def goAdd (a : Bytes) (n : Int) (dst : Bytes) : AddRes :=
  if dst.length = 0 then AddRes.crash dst
  else addLoop a n (dst.length - 1) dst 0

/-! ### Pool model (allocator package helpers)

Source: `normalizePool`, `adjacentPool`, `expandPool`, `splitPool`,
`poolOverlap` from the allocator package.  `net.IPMask.Size`,
`net.CIDRMask` and `net.IPNet.Contains` are Go standard library functions
and are modelled here by their documented behaviour on 4-byte IPv4
masks/addresses; `bytop.Copy` (a plain byte-slice copy) is the identity on
values in this embedding, and `To4()` succeeds exactly on the 4-byte form
of an address. -/

/-- Byte `j` of the canonical CIDR mask with `L` leading one bits. -/
def maskByte (L j : Nat) : Nat := 256 - 2 ^ (8 - min 8 (L - 8 * j))

/-- Models `net.CIDRMask(L, 32)`: four bytes of `L` leading ones. -/
def cidrMask (L : Nat) : Bytes := [maskByte L 0, maskByte L 1, maskByte L 2, maskByte L 3]

/-- Models `net.IPMask.Size()` on a 4-byte mask: the prefix length if the
mask is a canonical CIDR mask, otherwise Go reports `(0, 0)` (here `none`). -/
def maskSize (m : Bytes) : Option Nat := (List.range 33).find? (fun L => m == cidrMask L)

/-- A Go `*net.IPNet` value: address bytes and mask bytes. -/
structure Pool where
  ip : Bytes
  mask : Bytes
deriving DecidableEq

/-- The prefix length the allocator computes via
`masklen, _ := pool.Mask.Size()`: 0 for a non-canonical mask. -/
def masklenOf (p : Pool) : Nat := (maskSize p.mask).getD 0

/-- Models allocator.normalizePool: `To4()` (nil unless IPv4, i.e. the
4-byte form here), then the address is ANDed with the mask and the mask is
copied. -/
def normalizePool (p : Pool) : Option Pool :=
  if p.ip.length = 4 then some ⟨goAnd p.ip p.mask, p.mask⟩ else none

/-- Models allocator.adjacentPool: nil when `masklen <= 0`, otherwise the
buddy obtained by flipping bit `masklen - 1` of the address. -/
def adjacentPool (p : Pool) : Option Pool :=
  if masklenOf p = 0 then none
  else some ⟨flipBit (masklenOf p - 1) p.ip, p.mask⟩

/-- Models allocator.expandPool: nil when `masklen <= 0`, otherwise the
parent pool at `masklen - 1` (address re-masked with the shorter mask). -/
def expandPool (p : Pool) : Option Pool :=
  if masklenOf p = 0 then none
  else some ⟨goAnd p.ip (cidrMask (masklenOf p - 1)), cidrMask (masklenOf p - 1)⟩

/-- Models `pool.Mask.Size()` returning both components. -/
def maskSizePair (m : Bytes) : Nat × Nat :=
  match maskSize m with
  | some L => (L, 8 * m.length)
  | none => (0, 0)

/-- Models allocator.splitPool: nil pair when `addrlen != 32 || masklen >= 32`;
otherwise the two normalized halves, the left keeping the network address,
the right with bit `masklen` of the address flipped, both masks lengthened
by flipping bit `masklen` of the mask.  A nil `normalizePool` result makes
the Go code dereference nil later; callers treat `none` as a crash. -/
def splitPool (p : Pool) : Option (Pool × Pool) :=
  if (maskSizePair p.mask).2 ≠ 32 ∨ 32 ≤ (maskSizePair p.mask).1 then none
  else
    match normalizePool p with
    | none => none
    | some q =>
      some (⟨q.ip, flipBit (maskSizePair p.mask).1 q.mask⟩,
            ⟨flipBit (maskSizePair p.mask).1 q.ip, flipBit (maskSizePair p.mask).1 q.mask⟩)

/-- Models `net.IPNet.Contains` for 4-byte addresses and masks: both the
probe address and the stored network address are masked before comparison. -/
def goContains (p : Pool) (x : Bytes) : Bool :=
  (x.length == 4) && (p.ip.length == 4) && (p.mask.length == 4) &&
    (List.range 4).all fun i =>
      (p.ip.getD i 0 &&& p.mask.getD i 0) == (x.getD i 0 &&& p.mask.getD i 0)

/-- Models allocator.poolOverlap on pool values: either network address
(masked) contained in the other pool. -/
def poolOverlap (a b : Pool) : Bool :=
  goContains a (goAnd b.ip b.mask) || goContains b (goAnd a.ip a.mask)

/-! ### Allocator state

The `allocated map[string]bool` is keyed by `net.IPNet.String()` /
`net.IP.String()` text; the three constructors below mirror the three
injective, mutually distinct text shapes those produce for 4-byte data
("a.b.c.d/L", the hex form used for a non-canonical mask, and "a.b.c.d"). -/

inductive Key
  | pool (ip : Bytes) (masklen : Nat)
  | rawPool (ip : Bytes) (mask : Bytes)
  | addr (ip : Bytes)
deriving DecidableEq

/-- The map key `pool.String()` of a pool value. -/
def poolKey (p : Pool) : Key :=
  match maskSize p.mask with
  | some L => Key.pool p.ip L
  | none => Key.rawPool p.ip p.mask

/-- The map key `ip.String()` of an address. -/
def addrKey (ip : Bytes) : Key := Key.addr ip

/-- LocalAllocator state: the 32 free-list slots and the allocated set
(the lock, condition variable and dirty flag guard concurrency and
persistence only and carry no allocation state). -/
structure AllocState where
  pools : List (List Pool)
  allocated : List Key
deriving DecidableEq

/-- State after LocalAllocator.init: `make([][]*net.IPNet, 32)` and an
empty allocated map. -/
def initState : AllocState := ⟨List.replicate 32 [], []⟩

def keyMem (l : List Key) (k : Key) : Bool := l.contains k

def keyInsert (l : List Key) (k : Key) : List Key :=
  if l.contains k then l else k :: l

def keyRemove (l : List Key) (k : Key) : List Key := l.filter (fun x => x != k)

/-- Allocator errors, one per distinct error return in the source. -/
inductive AErr
  | invalidAddressFamily
  | invalidMaskLength
  | duplicatePool
  | poolExhausted
  | poolNotAllocated
  | addressUnavailable
  | addressNotAllocated
  | specificPoolRequest
deriving DecidableEq

/-- Outcome of an allocator operation: a value plus the post state, an
error plus the post state (Go returns errors with mutations kept), a
run-time panic, or fuel exhaustion of the embedding (proved unreachable
where it matters). -/
inductive Out (α : Type)
  | ok (val : α) (s : AllocState)
  | err (e : AErr) (s : AllocState)
  | crash
  | spin
deriving DecidableEq

/-! ### addPoolNoLock / AddPool -/

/-- Outcome of the scan inside addPoolNoLock over one slot: a duplicate, a
buddy at a position, or a nil dereference (`adjacentPool(pooli)` nil). -/
inductive Hit
  | dup
  | buddy (i : Nat)
  | crashed
deriving DecidableEq

/-- Shifts the buddy position by one (cons step of the scan). -/
def hitShift : Option Hit → Option Hit
  | some (Hit.buddy i) => some (Hit.buddy (i + 1))
  | h => h

/-- The scan of addPoolNoLock over the slot `s`: the first element equal to
the new pool stops with `dup`; otherwise, when `masklen != 0`, the first
element whose adjacent (buddy) address equals the new pool's address stops
with `buddy`. -/
def scanSlot (q : Pool) (L : Nat) : List Pool → Option Hit
  | [] => none
  | pi :: rest =>
    if goEqual q.ip pi.ip then some Hit.dup
    else if L ≠ 0 then
      match adjacentPool pi with
      | none => some Hit.crashed
      | some adj =>
        if goEqual q.ip adj.ip then some (Hit.buddy 0)
        else hitShift (scanSlot q L rest)
    else hitShift (scanSlot q L rest)

/-- Body of allocator.addPoolNoLock with explicit recursion fuel: normalize,
look up the slot of the (computed) prefix length — out of range when that
length is 32, since there are 32 slots — and either report a duplicate,
merge with the buddy by removing it and recursing on the expanded parent,
or append.  Each recursive call strictly decreases the prefix length, which
is at most 32, so fuel 33 is never exhausted (`addGo_no_spin`). -/
def addGo : Nat → AllocState → Pool → Out Unit
  | 0, _, _ => Out.spin
  | fuel + 1, s, p =>
    match normalizePool p with
    | none => Out.crash
    | some q =>
      match s.pools[masklenOf q]? with
      | none => Out.crash
      | some slot =>
        match scanSlot q (masklenOf q) slot with
        | some Hit.dup => Out.err AErr.duplicatePool s
        | some Hit.crashed => Out.crash
        | some (Hit.buddy i) =>
          match expandPool q with
          | none => Out.crash
          | some q' => addGo fuel ⟨s.pools.set (masklenOf q) (slot.eraseIdx i), s.allocated⟩ q'
        | none => Out.ok () ⟨s.pools.set (masklenOf q) (slot ++ [q]), s.allocated⟩

def addPoolNoLock (s : AllocState) (p : Pool) : Out Unit := addGo 33 s p

/-- allocator.AddPool: rejects non-4-byte masks, then addPoolNoLock. -/
def addPool (s : AllocState) (p : Pool) : Out Unit :=
  if p.mask.length ≠ 4 then Out.err AErr.invalidAddressFamily s
  else addPoolNoLock s p

/-! ### RequestPool -/

/-- Outcome of the downward scan of RequestPool. -/
inductive PopRes
  | found (i : Nat) (p : Pool) (ps : List (List Pool))
  | empty
  | oob
deriving DecidableEq

/-- The scan `for i = masklen; i >= 0; i--`: the first non-empty slot at or
below the start index has its head popped. -/
def popFrom (ps : List (List Pool)) : Nat → PopRes
  | 0 =>
    match ps[0]? with
    | none => PopRes.oob
    | some [] => PopRes.empty
    | some (p :: rest) => PopRes.found 0 p (ps.set 0 rest)
  | i + 1 =>
    match ps[i + 1]? with
    | none => PopRes.oob
    | some [] => popFrom ps i
    | some (p :: rest) => PopRes.found (i + 1) p (ps.set (i + 1) rest)

/-- The split loop `for ; i < masklen; i++`, running `count` times from slot
index `i`: each step splits the candidate, appends the right half to slot
`i+1` and continues with the left half.  `none` models the panic that
follows nil halves or an out-of-range slot. -/
def splitLoop : Pool → List (List Pool) → Nat → Nat → Option (Pool × List (List Pool))
  | pool, ps, _, 0 => some (pool, ps)
  | pool, ps, i, c + 1 =>
    match splitPool pool with
    | none => none
    | some (l, r) =>
      match ps[i + 1]? with
      | none => none
      | some slot => splitLoop l (ps.set (i + 1) (slot ++ [r])) (i + 1) c

/-- allocator.RequestPool: a non-nil specific pool request is rejected;
`masklen` outside [0, 31] is rejected; then scan down, pop, split up to the
requested length, and mark the result allocated. -/
def requestPool (s : AllocState) (masklen : Int) (poolArg : Option Pool) : Out Pool :=
  if poolArg.isSome then Out.err AErr.specificPoolRequest s
  else if masklen < 0 ∨ 31 < masklen then Out.err AErr.invalidMaskLength s
  else
    match popFrom s.pools masklen.toNat with
    | PopRes.oob => Out.crash
    | PopRes.empty => Out.err AErr.poolExhausted s
    | PopRes.found i p ps' =>
      match splitLoop p ps' i (masklen.toNat - i) with
      | none => Out.crash
      | some (pool, ps'') => Out.ok pool ⟨ps'', keyInsert s.allocated (poolKey pool)⟩

/-! ### ReleasePool -/

/-- allocator.ReleasePool: succeeds only when the key of the pool argument
(as given, not normalized) is in the allocated set; then the pool is
re-added (the error result of addPoolNoLock is discarded by the source) and
the key removed. -/
def releasePool (s : AllocState) (p : Pool) : Out Unit :=
  if keyMem s.allocated (poolKey p) then
    match addPoolNoLock s p with
    | Out.crash => Out.crash
    | Out.spin => Out.spin
    | Out.ok _ s' => Out.ok () ⟨s'.pools, keyRemove s'.allocated (poolKey p)⟩
    | Out.err _ s' => Out.ok () ⟨s'.pools, keyRemove s'.allocated (poolKey p)⟩
  else Out.err AErr.poolNotAllocated s

/-! ### RequestAddress / ReleaseAddress -/

/-- Outcome of the sequential scan of RequestAddress. -/
inductive ScanRes
  | found (ip : Bytes) (allocated : List Key)
  | exhausted
  | crash
  | spin
deriving DecidableEq

/-- The loop `for ; !Equal(ip, limit); Add(ip, 1, ip)`: stop with
`exhausted` at the limit (broadcast) address; hand out the first address
not in the allocated set; otherwise increment.  The increment uses
bytop.Add, whose panic is `crash`; the fuel only bounds the embedding and
is never exhausted because the first Add already panics. -/
def scanLoop (limit : Bytes) (allocated : List Key) : Bytes → Nat → ScanRes
  | _, 0 => ScanRes.spin
  | ip, c + 1 =>
    if goEqual ip limit then ScanRes.exhausted
    else if keyMem allocated (addrKey ip) then
      match goAdd ip 1 ip with
      | AddRes.crash _ => ScanRes.crash
      | AddRes.ok ip' => scanLoop limit allocated ip' c
    else ScanRes.found ip (keyInsert allocated (addrKey ip))

/-- allocator.RequestAddress: the pool must be currently leased.  A
specific request checks containment and availability.  The automatic
request copies the network address, computes the broadcast limit
`Or(Not(mask), ip)`, then increments past the network address with
bytop.Add — which panics (see `goAdd_crash`) — before the scan loop. -/
def requestAddress (s : AllocState) (pool : Pool) (ipArg : Option Bytes) : Out Bytes :=
  if keyMem s.allocated (poolKey pool) then
    match ipArg with
    | some ip =>
      if goContains pool ip && !keyMem s.allocated (addrKey ip) then
        Out.ok ip ⟨s.pools, keyInsert s.allocated (addrKey ip)⟩
      else Out.err AErr.addressUnavailable s
    | none =>
      if pool.ip.length = 4 then
        match goAdd pool.ip 1 pool.ip with
        | AddRes.crash _ => Out.crash
        | AddRes.ok ip1 =>
          match scanLoop (goOr (goNot pool.mask) pool.ip) s.allocated ip1 (2 ^ 32) with
          | ScanRes.found ip al => Out.ok ip ⟨s.pools, al⟩
          | ScanRes.exhausted => Out.err AErr.poolExhausted s
          | ScanRes.crash => Out.crash
          | ScanRes.spin => Out.spin
      else Out.err AErr.invalidAddressFamily s
  else Out.err AErr.poolNotAllocated s

/-- allocator.ReleaseAddress: `To4()` must succeed and the address key must
be allocated; then the key is removed. -/
def releaseAddress (s : AllocState) (ip : Bytes) : Out Unit :=
  if ip.length = 4 then
    if keyMem s.allocated (addrKey ip) then
      Out.ok () ⟨s.pools, keyRemove s.allocated (addrKey ip)⟩
    else Out.err AErr.addressNotAllocated s
  else Out.err AErr.invalidAddressFamily s

/-! ### Reachability and invariant statements -/

/-- The state an operation leaves behind: Go returns the (possibly
mutated) allocator on a normal return or an error return; a panic leaves
no usable state. -/
def Out.state? {α : Type} : Out α → Option AllocState
  | Out.ok _ s => some s
  | Out.err _ s => some s
  | Out.crash => none
  | Out.spin => none

/-- A Go-typed argument: every byte entry of the value is < 256. -/
def argWf (p : Pool) : Prop := bytesWf p.ip ∧ bytesWf p.mask

instance argWf.dec (p : Pool) : Decidable (argWf p) := by
  unfold argWf; infer_instance

/-- States reachable from a fresh allocator by any sequence of the five
exported operations (with byte-valued arguments, as Go's types force). -/
inductive Reach : AllocState → Prop
  | init : Reach initState
  | addPool_step {s s' : AllocState} {p : Pool} : Reach s → argWf p →
      (addPool s p).state? = some s' → Reach s'
  | requestPool_step {s s' : AllocState} {n : Int} {parg : Option Pool} : Reach s →
      (∀ q ∈ parg, argWf q) → (requestPool s n parg).state? = some s' → Reach s'
  | releasePool_step {s s' : AllocState} {p : Pool} : Reach s → argWf p →
      (releasePool s p).state? = some s' → Reach s'
  | requestAddress_step {s s' : AllocState} {pool : Pool} {iparg : Option Bytes} : Reach s →
      argWf pool → (∀ ip ∈ iparg, bytesWf ip) →
      (requestAddress s pool iparg).state? = some s' → Reach s'
  | releaseAddress_step {s s' : AllocState} {ip : Bytes} : Reach s → bytesWf ip →
      (releaseAddress s ip).state? = some s' → Reach s'

/-- All pools stored in the free-list structure, in slot order. -/
def freePools (s : AllocState) : List Pool := s.pools.flatten

/-- The pools recorded in the allocated set (each canonical pool key
denotes the pool with that address and canonical mask). -/
def allocPools (s : AllocState) : List Pool :=
  s.allocated.filterMap fun k =>
    match k with
    | Key.pool ip L => some ⟨ip, cidrMask L⟩
    | _ => none

/-- No two pools stored anywhere in the free structure overlap. -/
def NoOverlap (s : AllocState) : Prop :=
  List.Pairwise (fun a b => poolOverlap a b = false) (freePools s)

instance NoOverlap.dec (s : AllocState) : Decidable (NoOverlap s) := by
  unfold NoOverlap; exact List.instDecidablePairwise _

/-- Reachability restricted by the proviso that every pool handed to
AddPool is a well-formed IPv4 CIDR pool of prefix length at most 31 that
does not overlap any pool currently free or allocated.  The other four
operations are unrestricted. -/
inductive GoodReach : AllocState → Prop
  | init : GoodReach initState
  | addPool_step {s s' : AllocState} {p : Pool} : GoodReach s → argWf p →
      p.ip.length = 4 → (∃ L, maskSize p.mask = some L ∧ L ≤ 31) →
      (∀ x ∈ freePools s ++ allocPools s, poolOverlap p x = false) →
      (addPool s p).state? = some s' → GoodReach s'
  | requestPool_step {s s' : AllocState} {n : Int} {parg : Option Pool} : GoodReach s →
      (∀ q ∈ parg, argWf q) → (requestPool s n parg).state? = some s' → GoodReach s'
  | releasePool_step {s s' : AllocState} {p : Pool} : GoodReach s → argWf p →
      (releasePool s p).state? = some s' → GoodReach s'
  | requestAddress_step {s s' : AllocState} {pool : Pool} {iparg : Option Bytes} : GoodReach s →
      argWf pool → (∀ ip ∈ iparg, bytesWf ip) →
      (requestAddress s pool iparg).state? = some s' → GoodReach s'
  | releaseAddress_step {s s' : AllocState} {ip : Bytes} : GoodReach s → bytesWf ip →
      (releaseAddress s ip).state? = some s' → GoodReach s'

/-- A pool stored at slot `i` in a well-formed free structure: a 4-byte,
byte-valued, normalized network address with the canonical /i mask. -/
def poolWfAt (p : Pool) (i : Nat) : Prop :=
  p.ip.length = 4 ∧ bytesWf p.ip ∧ p.mask = cidrMask i ∧ goAnd p.ip p.mask = p.ip

instance poolWfAt.dec (p : Pool) (i : Nat) : Decidable (poolWfAt p i) := by
  unfold poolWfAt; infer_instance

/-- A well-formed pool value: a 4-byte, byte-valued network address,
normalized with respect to its canonical CIDR mask. -/
def wfPool (p : Pool) : Prop :=
  ∃ K, K ≤ 32 ∧ p.mask = cidrMask K ∧ p.ip.length = 4 ∧ bytesWf p.ip ∧
    goAnd p.ip (cidrMask K) = p.ip

/-- The free-list structure invariant: 32 slots, and every stored pool is
well formed for its slot index. -/
def SlotInv (s : AllocState) : Prop :=
  s.pools.length = 32 ∧ ∀ i, i < s.pools.length → ∀ p ∈ s.pools.getD i [], poolWfAt p i

instance SlotInv.dec (s : AllocState) : Decidable (SlotInv s) := by
  unfold SlotInv; infer_instance

/-- The full allocator invariant maintained by the five operations under
the AddPool proviso of `GoodReach`: the free structure is well formed and
overlap-free, free pools never overlap allocated pools, allocated pools
never overlap each other, every allocated pool key records a well-formed
normalized pool of prefix length at most 31, and no raw (non-canonical
mask) pool key is ever stored. -/
def StateWf (s : AllocState) : Prop :=
  SlotInv s ∧
  List.Pairwise (fun a b => poolOverlap a b = false) (freePools s) ∧
  (∀ x ∈ freePools s, ∀ y ∈ allocPools s, poolOverlap x y = false) ∧
  List.Pairwise (fun a b => poolOverlap a b = false) (allocPools s) ∧
  (∀ ip L, Key.pool ip L ∈ s.allocated →
    ip.length = 4 ∧ bytesWf ip ∧ goAnd ip (cidrMask L) = ip ∧ L ≤ 31) ∧
  (∀ ip m, Key.rawPool ip m ∉ s.allocated)

/-! ### bytop basic lemmas -/

theorem goEqual_iff : ∀ a b : Bytes, goEqual a b = true ↔ a = b := by
  intro a
  induction a with
  | nil => intro b; cases b <;> simp [goEqual]
  | cons x xs ih =>
    intro b
    cases b with
    | nil => simp [goEqual]
    | cons y ys => simp [goEqual, ih]

/-- The Add loop never returns normally: every control path ends in the
out-of-range access that follows the wrap of the unsigned counter. -/
theorem addLoop_crash (a : Bytes) (n : Int) :
    ∀ i dst carry, ∃ d, addLoop a n i dst carry = AddRes.crash d := by
  intro i
  induction i with
  | zero =>
    intro dst carry
    cases h : a[0]? with
    | none => exact ⟨dst, by simp [addLoop, h]⟩
    | some ai => exact ⟨dst.set 0 (addAcc carry ai n % 0xFF), by simp [addLoop, h]⟩
  | succ k ih =>
    intro dst carry
    cases h : a[k + 1]? with
    | none => exact ⟨dst, by simp [addLoop, h]⟩
    | some ai =>
      obtain ⟨d, hd⟩ := ih _ _
      exact ⟨d, by simp only [addLoop, h]; exact hd⟩

/-- bytop.Add never returns normally on any input. -/
theorem goAdd_crash (a : Bytes) (n : Int) (dst : Bytes) :
    ∃ d, goAdd a n dst = AddRes.crash d := by
  unfold goAdd
  by_cases h : dst.length = 0
  · exact ⟨dst, by simp [h]⟩
  · simpa [h] using addLoop_crash a n (dst.length - 1) dst 0

/-- Writing back the entry a list already holds is the identity. -/
theorem set_getD_self (s : Bytes) (j : Nat) (h : j < s.length) :
    s.set j (s.getD j 0) = s := by
  apply List.ext_getElem?
  intro m
  by_cases hm : j = m
  · subst hm
    rw [List.getElem?_set_self h, List.getD_eq_getElem?_getD, List.getElem?_eq_getElem h]
    rfl
  · rw [List.getElem?_set_ne hm]

/-! ### Byte-level kernel lemmas

Facts about single bytes are settled by bounded `decide`; list-level facts
about 4-byte addresses reduce to them pointwise. -/

theorem byteAnd255 : ∀ b, b < 256 → b &&& 255 = b := by decide

theorem byteAndMono : ∀ r, r < 9 → ∀ t, t < 9 → r ≤ t → ∀ b, b < 256 →
    b &&& (256 - 2 ^ (8 - r)) = b → b &&& (256 - 2 ^ (8 - t)) = b := by decide

theorem byteAndSub : ∀ r, r < 9 → ∀ b, b < 256 →
    b &&& (256 - 2 ^ (8 - r)) = b - b % 2 ^ (8 - r) := by decide

theorem byteFlipOutside : ∀ r, r < 8 → ∀ b, b < 256 →
    b &&& (256 - 2 ^ (8 - r)) = b → (b ^^^ 2 ^ (7 - r)) &&& (256 - 2 ^ (8 - r)) = b := by decide

theorem byteFlipInside : ∀ r, r < 8 → ∀ b, b < 256 →
    b &&& (256 - 2 ^ (8 - r)) = b →
    (b ^^^ 2 ^ (7 - r)) &&& (256 - 2 ^ (7 - r)) = b ^^^ 2 ^ (7 - r) := by decide

theorem byteFlipAdd : ∀ r, r < 8 → ∀ b, b < 256 →
    b &&& (256 - 2 ^ (8 - r)) = b → b ^^^ 2 ^ (7 - r) = b + 2 ^ (7 - r) := by decide

theorem byteFlipBound : ∀ r, r < 8 → ∀ b, b < 256 → b ^^^ 2 ^ (7 - r) < 256 := by decide

theorem byteFlipNe : ∀ r, r < 8 → ∀ b, b < 256 → b ^^^ 2 ^ (7 - r) ≠ b := by decide

theorem byteAndBound (b m : Nat) (hb : b < 256) : b &&& m < 256 :=
  Nat.lt_of_le_of_lt Nat.and_le_left hb

/-! ### 4-byte list machinery -/

theorem flipBit_flipBit (s : Bytes) (i : Nat) (h : i < 8 * s.length) :
    flipBit i (flipBit i s) = s := by
  have hj : i / 8 < s.length := Nat.div_lt_of_lt_mul (by omega)
  have h1 : (s.set (i / 8) (s.getD (i / 8) 0 ^^^ 1 <<< (7 - i % 8))).getD (i / 8) 0
      = s.getD (i / 8) 0 ^^^ 1 <<< (7 - i % 8) := by
    rw [List.getD_eq_getElem?_getD, List.getElem?_set_self (by simpa using hj)]
    rfl
  unfold flipBit
  rw [h1, List.set_set, Nat.xor_cancel_right, set_getD_self s _ hj]

theorem bytes4 (x : Bytes) (h : x.length = 4) : ∃ a b c d, x = [a, b, c, d] := by
  match x, h with
  | [a, b, c, d], _ => exact ⟨a, b, c, d, rfl⟩

theorem getD_lt (x : Bytes) (j d : Nat) (h : j < x.length) : x.getD j d = x.getD j 0 := by
  rw [List.getD_eq_getElem?_getD, List.getD_eq_getElem?_getD, List.getElem?_eq_getElem h]
  rfl

theorem list4_ext (x y : Bytes) (hx : x.length = 4) (hy : y.length = 4)
    (h : ∀ j, j < 4 → x.getD j 0 = y.getD j 0) : x = y := by
  obtain ⟨a, b, c, d, rfl⟩ := bytes4 x hx
  obtain ⟨a', b', c', d', rfl⟩ := bytes4 y hy
  have h0 := h 0 (by omega)
  have h1 := h 1 (by omega)
  have h2 := h 2 (by omega)
  have h3 := h 3 (by omega)
  simp [List.getD] at h0 h1 h2 h3
  simp [h0, h1, h2, h3]

theorem bytesWf_getD (x : Bytes) (hw : bytesWf x) (j : Nat) (h : j < x.length) :
    x.getD j 0 < 256 := by
  have hm : x.getD j 0 ∈ x := by
    rw [List.getD_eq_getElem?_getD, List.getElem?_eq_getElem h]
    exact List.getElem_mem h
  exact hw _ hm

theorem goAnd_length (x y : Bytes) : (goAnd x y).length = max x.length y.length := by
  simp [goAnd]

theorem goAnd_getD (x y : Bytes) (j : Nat) (hj : j < max x.length y.length) :
    (goAnd x y).getD j 0 = x.getD j 255 &&& y.getD j 255 := by
  simp [goAnd, List.getD_eq_getElem?_getD, List.getElem?_map, List.getElem?_range, hj]

theorem cidrMask_getD (L j : Nat) (hj : j < 4) (d : Nat) :
    (cidrMask L).getD j d = maskByte L j := by
  interval_cases j <;> rfl

theorem goAnd_cidr_getD (x : Bytes) (hx : x.length = 4) (L j : Nat) (hj : j < 4) :
    (goAnd x (cidrMask L)).getD j 0 = x.getD j 0 &&& maskByte L j := by
  rw [goAnd_getD x (cidrMask L) j (by simp [hx, cidrMask]; omega)]
  rw [getD_lt x j 255 (by omega), cidrMask_getD L j hj]

theorem norm_pointwise (x : Bytes) (hx : x.length = 4) (L : Nat) :
    goAnd x (cidrMask L) = x ↔ ∀ j, j < 4 → x.getD j 0 &&& maskByte L j = x.getD j 0 := by
  constructor
  · intro h j hj
    have h2 : (goAnd x (cidrMask L)).getD j 0 = x.getD j 0 := by rw [h]
    rwa [goAnd_cidr_getD x hx L j hj] at h2
  · intro h
    refine list4_ext _ _ ?_ hx ?_
    · rw [goAnd_length]
      simp [hx, cidrMask]
    · intro j hj
      rw [goAnd_cidr_getD x hx L j hj]
      exact h j hj

theorem maskByte_at (L : Nat) : maskByte L (L / 8) = 256 - 2 ^ (8 - L % 8) := by
  have h : min 8 (L - 8 * (L / 8)) = L % 8 := by omega
  unfold maskByte
  rw [h]

theorem maskByte_at_succ (L : Nat) :
    maskByte (L + 1) (L / 8) = 256 - 2 ^ (7 - L % 8) := by
  have h : min 8 (L + 1 - 8 * (L / 8)) = L % 8 + 1 := by omega
  have h2 : 8 - (L % 8 + 1) = 7 - L % 8 := by omega
  unfold maskByte
  rw [h, h2]

theorem flipBit_set (L : Nat) (x : Bytes) :
    flipBit L x = x.set (L / 8) (x.getD (L / 8) 0 ^^^ 2 ^ (7 - L % 8)) := by
  unfold flipBit
  rw [Nat.one_shiftLeft]

theorem flipBit_length (L : Nat) (x : Bytes) : (flipBit L x).length = x.length := by
  rw [flipBit_set]
  simp

theorem flipBit_getD (L : Nat) (x : Bytes) (hx : x.length = 4) (j : Nat)
    (hj : j < 4) :
    (flipBit L x).getD j 0
      = if L / 8 = j then x.getD j 0 ^^^ 2 ^ (7 - L % 8) else x.getD j 0 := by
  rw [flipBit_set]
  by_cases hqj : L / 8 = j
  · subst hqj
    rw [if_pos rfl, List.getD_eq_getElem?_getD,
      List.getElem?_set_self (by omega : L / 8 < x.length)]
    rfl
  · rw [if_neg hqj, List.getD_eq_getElem?_getD, List.getElem?_set_ne hqj,
      ← List.getD_eq_getElem?_getD]

theorem normalized_mono (x : Bytes) (hx : x.length = 4) (hw : bytesWf x) {L T : Nat}
    (hLT : L ≤ T) (hn : goAnd x (cidrMask L) = x) : goAnd x (cidrMask T) = x := by
  rw [norm_pointwise x hx] at hn ⊢
  intro j hj
  have hb : x.getD j 0 < 256 := bytesWf_getD x hw j (by omega)
  have hr : min 8 (L - 8 * j) ≤ min 8 (T - 8 * j) := by omega
  exact byteAndMono _ (by omega) _ (by omega) hr _ hb (hn j hj)

theorem flip_restores (x : Bytes) (hx : x.length = 4) (hw : bytesWf x) {L : Nat}
    (hL : L ≤ 31) (hn : goAnd x (cidrMask L) = x) :
    goAnd (flipBit L x) (cidrMask L) = x := by
  have hlen : (flipBit L x).length = 4 := by rw [flipBit_length, hx]
  refine list4_ext _ _ ?_ hx ?_
  · rw [goAnd_length]
    simp [hlen, cidrMask]
  · intro j hj
    rw [goAnd_cidr_getD _ hlen L j hj, flipBit_getD L x hx j hj]
    rw [norm_pointwise x hx] at hn
    have hb : x.getD j 0 < 256 := bytesWf_getD x hw j (by omega)
    by_cases hqj : L / 8 = j
    · rw [if_pos hqj, ← hqj, maskByte_at L]
      have hmask : x.getD (L / 8) 0 &&& (256 - 2 ^ (8 - L % 8)) = x.getD (L / 8) 0 := by
        have := hn (L / 8) (by omega)
        rwa [maskByte_at L] at this
      rw [hqj] at hmask ⊢
      exact byteFlipOutside _ (by omega) _ hb hmask
    · rw [if_neg hqj]
      exact hn j hj

theorem flip_norm_succ (x : Bytes) (hx : x.length = 4) (hw : bytesWf x) {L : Nat}
    (hL : L ≤ 31) (hn : goAnd x (cidrMask L) = x) :
    goAnd (flipBit L x) (cidrMask (L + 1)) = flipBit L x := by
  have hlen : (flipBit L x).length = 4 := by rw [flipBit_length, hx]
  have hwf : bytesWf (flipBit L x) := by
    intro b hb
    have : ∃ j, j < 4 ∧ (flipBit L x).getD j 0 = b := by
      obtain ⟨j, hj, hjb⟩ := List.mem_iff_getElem.mp hb
      refine ⟨j, by omega, ?_⟩
      rw [List.getD_eq_getElem?_getD, List.getElem?_eq_getElem hj]
      simpa using hjb
    obtain ⟨j, hj, rfl⟩ := this
    rw [flipBit_getD L x hx j hj]
    have hbj : x.getD j 0 < 256 := bytesWf_getD x hw j (by omega)
    by_cases hqj : L / 8 = j
    · rw [if_pos hqj]
      exact byteFlipBound _ (by omega) _ hbj
    · rw [if_neg hqj]
      exact hbj
  rw [norm_pointwise _ hlen]
  rw [norm_pointwise x hx] at hn
  intro j hj
  rw [flipBit_getD L x hx j hj]
  have hb : x.getD j 0 < 256 := bytesWf_getD x hw j (by omega)
  by_cases hqj : L / 8 = j
  · rw [if_pos hqj, ← hqj, maskByte_at_succ L]
    have hmask : x.getD (L / 8) 0 &&& (256 - 2 ^ (8 - L % 8)) = x.getD (L / 8) 0 := by
      have := hn (L / 8) (by omega)
      rwa [maskByte_at L] at this
    exact byteFlipInside _ (by omega) _ (bytesWf_getD x hw _ (by omega)) hmask
  · rw [if_neg hqj]
    have hr : min 8 (L - 8 * j) ≤ min 8 (L + 1 - 8 * j) := by omega
    exact byteAndMono _ (by omega) _ (by omega) hr _ hb (hn j hj)

theorem flip_ne (x : Bytes) (hx : x.length = 4) (hw : bytesWf x) {L : Nat} (hL : L ≤ 31) :
    flipBit L x ≠ x := by
  intro heq
  have := congrArg (fun l => l.getD (L / 8) 0) heq
  simp only [flipBit_getD L x hx (L / 8) (by omega), if_pos rfl] at this
  exact byteFlipNe _ (by omega) _ (bytesWf_getD x hw _ (by omega)) this

/-! ### Pool-model lemmas -/

theorem cidrMask_length (L : Nat) : (cidrMask L).length = 4 := rfl

theorem maskSize_cidrMask : ∀ L, L < 33 → maskSize (cidrMask L) = some L := by decide

theorem flipBit_cidrMask : ∀ L, L < 32 → flipBit L (cidrMask L) = cidrMask (L + 1) := by decide

theorem maskSize_some (m : Bytes) (L : Nat) (h : maskSize m = some L) :
    m = cidrMask L ∧ L < 33 := by
  constructor
  · have := List.find?_some h
    simpa using this
  · have := List.mem_of_find?_eq_some h
    simpa using this

theorem masklenOf_mk (x : Bytes) (L : Nat) (hL : L < 33) :
    masklenOf ⟨x, cidrMask L⟩ = L := by
  simp [masklenOf, maskSize_cidrMask L hL]

theorem splitPool_eq (x : Bytes) (L : Nat) (hx : x.length = 4) (hL : L ≤ 31)
    (hn : goAnd x (cidrMask L) = x) :
    splitPool ⟨x, cidrMask L⟩
      = some (⟨x, cidrMask (L + 1)⟩, ⟨flipBit L x, cidrMask (L + 1)⟩) := by
  unfold splitPool
  have hms : maskSizePair (cidrMask L) = (L, 32) := by
    simp [maskSizePair, maskSize_cidrMask L (by omega), cidrMask_length]
  rw [hms]
  simp only [normalizePool, hx, if_pos, hn]
  rw [if_neg (by omega)]
  simp [flipBit_cidrMask L (by omega)]

theorem normalizePool_mk (p : Pool) (h4 : p.ip.length = 4) :
    normalizePool p = some ⟨goAnd p.ip p.mask, p.mask⟩ := by
  simp [normalizePool, h4]

theorem adjacentPool_mk (x : Bytes) (K : Nat) (hK : K < 33) (hK0 : K ≠ 0) :
    adjacentPool ⟨x, cidrMask K⟩ = some ⟨flipBit (K - 1) x, cidrMask K⟩ := by
  simp [adjacentPool, masklenOf_mk x K hK, hK0]

theorem expandPool_mk (x : Bytes) (K : Nat) (hK : K < 33) (hK0 : K ≠ 0) :
    expandPool ⟨x, cidrMask K⟩ = some ⟨goAnd x (cidrMask (K - 1)), cidrMask (K - 1)⟩ := by
  simp [expandPool, masklenOf_mk x K hK, hK0]

theorem goEqual_self (x : Bytes) : goEqual x x = true := (goEqual_iff x x).mpr rfl

theorem goEqual_false (x y : Bytes) (h : x ≠ y) : goEqual x y = false := by
  rcases hb : goEqual x y with _ | _
  · rfl
  · exact absurd ((goEqual_iff x y).mp hb) h

/-! ### addGo step lemmas -/

theorem addGo_crash_norm (fuel : Nat) (s : AllocState) (p : Pool)
    (h : normalizePool p = none) : addGo (fuel + 1) s p = Out.crash := by
  simp [addGo, h]

theorem addGo_crash_oob (fuel : Nat) (s : AllocState) (p q : Pool)
    (hq : normalizePool p = some q) (h : s.pools[masklenOf q]? = none) :
    addGo (fuel + 1) s p = Out.crash := by
  simp [addGo, hq, h]

theorem addGo_dup (fuel : Nat) (s : AllocState) (p q : Pool) (slot : List Pool)
    (hq : normalizePool p = some q) (hslot : s.pools[masklenOf q]? = some slot)
    (hscan : scanSlot q (masklenOf q) slot = some Hit.dup) :
    addGo (fuel + 1) s p = Out.err AErr.duplicatePool s := by
  simp [addGo, hq, hslot, hscan]

theorem addGo_append (fuel : Nat) (s : AllocState) (p q : Pool) (slot : List Pool)
    (hq : normalizePool p = some q) (hslot : s.pools[masklenOf q]? = some slot)
    (hscan : scanSlot q (masklenOf q) slot = none) :
    addGo (fuel + 1) s p
      = Out.ok () ⟨s.pools.set (masklenOf q) (slot ++ [q]), s.allocated⟩ := by
  simp [addGo, hq, hslot, hscan]

theorem addGo_buddy (fuel : Nat) (s : AllocState) (p q q' : Pool) (slot : List Pool) (i : Nat)
    (hq : normalizePool p = some q) (hslot : s.pools[masklenOf q]? = some slot)
    (hscan : scanSlot q (masklenOf q) slot = some (Hit.buddy i))
    (hex : expandPool q = some q') :
    addGo (fuel + 1) s p
      = addGo fuel ⟨s.pools.set (masklenOf q) (slot.eraseIdx i), s.allocated⟩ q' := by
  simp [addGo, hq, hslot, hscan, hex]

/-! ### Replicate-set list helpers -/

theorem set_replicate_self {α : Type} (n i : Nat) (a : α) :
    (List.replicate n a).set i a = List.replicate n a := by
  apply List.ext_getElem?
  intro m
  by_cases hm : i = m
  · subst hm
    by_cases hi : i < n
    · rw [List.getElem?_set_self (by simpa using hi), List.getElem?_replicate, if_pos hi]
    · rw [List.set_eq_of_length_le (by simpa using Nat.le_of_not_lt hi)]
  · rw [List.getElem?_set_ne hm]

theorem flatten_replicate_nil {α : Type} (n : Nat) :
    (List.replicate n ([] : List α)).flatten = [] := by
  induction n with
  | zero => rfl
  | succ k ih => simpa [List.replicate_succ] using ih

theorem flatten_set_replicate {α : Type} (n i : Nat) (a : α) (h : i < n) :
    ((List.replicate n ([] : List α)).set i [a]).flatten = [a] := by
  induction n generalizing i with
  | zero => omega
  | succ k ih =>
    cases i with
    | zero => simp [List.replicate_succ, flatten_replicate_nil]
    | succ m =>
      rw [List.replicate_succ]
      simpa using ih m (by omega)

/-! ### Claim C8: amended theorem -/

/-- Amended claim C8.  For every normalized IPv4 pool P of prefix length
`L ≤ 30`, Split(P) yields the left/right halves at `L+1`; Expand of
either half gives back P; and adding both halves, in either order, to an
empty allocator buddy-merges them into a free structure holding exactly
one entry, equal to P.  (At `L = 31` the halves are /32 pools and AddPool
crashes on slot 32, see the counterexample.) -/
theorem split_expand_add_inverse (x : Bytes) (L : Nat) (hx : x.length = 4) (hw : bytesWf x)
    (hL : L ≤ 30) (hn : goAnd x (cidrMask L) = x) :
    splitPool ⟨x, cidrMask L⟩
        = some (⟨x, cidrMask (L + 1)⟩, ⟨flipBit L x, cidrMask (L + 1)⟩) ∧
      expandPool ⟨x, cidrMask (L + 1)⟩ = some ⟨x, cidrMask L⟩ ∧
      expandPool ⟨flipBit L x, cidrMask (L + 1)⟩ = some ⟨x, cidrMask L⟩ ∧
      addPool initState ⟨x, cidrMask (L + 1)⟩
        = Out.ok () ⟨(List.replicate 32 []).set (L + 1) [⟨x, cidrMask (L + 1)⟩], []⟩ ∧
      addPool ⟨(List.replicate 32 []).set (L + 1) [⟨x, cidrMask (L + 1)⟩], []⟩
          ⟨flipBit L x, cidrMask (L + 1)⟩
        = Out.ok () ⟨(List.replicate 32 []).set L [⟨x, cidrMask L⟩], []⟩ ∧
      addPool initState ⟨flipBit L x, cidrMask (L + 1)⟩
        = Out.ok () ⟨(List.replicate 32 []).set (L + 1) [⟨flipBit L x, cidrMask (L + 1)⟩], []⟩ ∧
      addPool ⟨(List.replicate 32 []).set (L + 1) [⟨flipBit L x, cidrMask (L + 1)⟩], []⟩
          ⟨x, cidrMask (L + 1)⟩
        = Out.ok () ⟨(List.replicate 32 []).set L [⟨x, cidrMask L⟩], []⟩ ∧
      freePools ⟨(List.replicate 32 []).set L [⟨x, cidrMask L⟩], []⟩ = [⟨x, cidrMask L⟩] := by
  have hxf : (flipBit L x).length = 4 := by rw [flipBit_length, hx]
  have hnL1 : goAnd x (cidrMask (L + 1)) = x := normalized_mono x hx hw (by omega) hn
  have hnf : goAnd (flipBit L x) (cidrMask (L + 1)) = flipBit L x :=
    flip_norm_succ x hx hw (by omega) hn
  have hrest : goAnd (flipBit L x) (cidrMask L) = x := flip_restores x hx hw (by omega) hn
  have hne : flipBit L x ≠ x := flip_ne x hx hw (by omega)
  have hmaskLen : (cidrMask (L + 1)).length = 4 := cidrMask_length _
  have hml : masklenOf ⟨x, cidrMask (L + 1)⟩ = L + 1 := masklenOf_mk x (L + 1) (by omega)
  have hmlf : masklenOf ⟨flipBit L x, cidrMask (L + 1)⟩ = L + 1 :=
    masklenOf_mk (flipBit L x) (L + 1) (by omega)
  have hrepl : ∀ K : Nat, K < 32 → (List.replicate 32 ([] : List Pool))[K]? = some [] := by
    intro K hK
    rw [List.getElem?_replicate, if_pos hK]
  -- the four AddPool evaluations
  have hadd1 : addPool initState ⟨x, cidrMask (L + 1)⟩
      = Out.ok () ⟨(List.replicate 32 []).set (L + 1) [⟨x, cidrMask (L + 1)⟩], []⟩ := by
    unfold addPool
    rw [if_neg (by simp [hmaskLen])]
    unfold addPoolNoLock
    rw [show (33 : Nat) = 32 + 1 from rfl]
    rw [addGo_append 32 initState _ ⟨x, cidrMask (L + 1)⟩ []
      (by rw [normalizePool_mk _ hx]; simp [hnL1])
      (by rw [hml]; exact hrepl (L + 1) (by omega)) (by rw [hml]; rfl)]
    rw [hml]
    rfl
  have hadd1f : addPool initState ⟨flipBit L x, cidrMask (L + 1)⟩
      = Out.ok () ⟨(List.replicate 32 []).set (L + 1) [⟨flipBit L x, cidrMask (L + 1)⟩], []⟩ := by
    unfold addPool
    rw [if_neg (by simp [hmaskLen])]
    unfold addPoolNoLock
    rw [show (33 : Nat) = 32 + 1 from rfl]
    rw [addGo_append 32 initState _ ⟨flipBit L x, cidrMask (L + 1)⟩ []
      (by rw [normalizePool_mk _ hxf]; simp [hnf])
      (by rw [hmlf]; exact hrepl (L + 1) (by omega)) (by rw [hmlf]; rfl)]
    rw [hmlf]
    rfl
  -- merging second halves
  have hmergeTail : addGo 32 ⟨((List.replicate 32 ([] : List Pool)).set (L + 1) []), []⟩
      ⟨x, cidrMask L⟩ = Out.ok () ⟨(List.replicate 32 []).set L [⟨x, cidrMask L⟩], []⟩ := by
    rw [show (32 : Nat) = 31 + 1 from rfl]
    rw [set_replicate_self]
    have hmlL : masklenOf ⟨x, cidrMask L⟩ = L := masklenOf_mk x L (by omega)
    rw [addGo_append 31 _ _ ⟨x, cidrMask L⟩ []
      (by rw [normalizePool_mk _ hx]; simp [hn])
      (by rw [hmlL]; exact hrepl L (by omega)) (by rw [hmlL]; rfl)]
    rw [hmlL]
    rfl
  have hadd2 : addPool ⟨(List.replicate 32 []).set (L + 1) [⟨x, cidrMask (L + 1)⟩], []⟩
      ⟨flipBit L x, cidrMask (L + 1)⟩
      = Out.ok () ⟨(List.replicate 32 []).set L [⟨x, cidrMask L⟩], []⟩ := by
    unfold addPool
    rw [if_neg (by simp [hmaskLen])]
    unfold addPoolNoLock
    rw [show (33 : Nat) = 32 + 1 from rfl]
    rw [addGo_buddy 32 _ _ ⟨flipBit L x, cidrMask (L + 1)⟩ ⟨x, cidrMask L⟩
      [⟨x, cidrMask (L + 1)⟩] 0
      (by rw [normalizePool_mk _ hxf]; simp [hnf])
      (by
        rw [hmlf, List.getElem?_set_self]
        simp [List.length_replicate]
        omega)
      (by
        rw [hmlf]
        unfold scanSlot
        rw [goEqual_false _ _ hne]
        rw [if_neg (by simp), if_pos (by omega)]
        rw [adjacentPool_mk x (L + 1) (by omega) (by omega)]
        simp [goEqual_self])
      (by
        rw [expandPool_mk (flipBit L x) (L + 1) (by omega) (by omega)]
        simpa using hrest)]
    rw [hmlf]
    simpa using hmergeTail
  have hadd2f : addPool ⟨(List.replicate 32 []).set (L + 1) [⟨flipBit L x, cidrMask (L + 1)⟩], []⟩
      ⟨x, cidrMask (L + 1)⟩
      = Out.ok () ⟨(List.replicate 32 []).set L [⟨x, cidrMask L⟩], []⟩ := by
    unfold addPool
    rw [if_neg (by simp [hmaskLen])]
    unfold addPoolNoLock
    rw [show (33 : Nat) = 32 + 1 from rfl]
    rw [addGo_buddy 32 _ _ ⟨x, cidrMask (L + 1)⟩ ⟨x, cidrMask L⟩
      [⟨flipBit L x, cidrMask (L + 1)⟩] 0
      (by rw [normalizePool_mk _ hx]; simp [hnL1])
      (by
        rw [hml, List.getElem?_set_self]
        simp [List.length_replicate]
        omega)
      (by
        rw [hml]
        unfold scanSlot
        rw [goEqual_false _ _ (fun h => hne h.symm)]
        rw [if_neg (by simp), if_pos (by omega)]
        rw [adjacentPool_mk (flipBit L x) (L + 1) (by omega) (by omega)]
        have : flipBit L (flipBit L x) = x := flipBit_flipBit x L (by omega)
        simp only [Nat.add_sub_cancel, this]
        simp [goEqual_self])
      (by
        rw [expandPool_mk x (L + 1) (by omega) (by omega)]
        simpa using hn)]
    rw [hml]
    simpa using hmergeTail
  refine ⟨splitPool_eq x L hx (by omega) hn, ?_, ?_, hadd1, hadd2, hadd1f, hadd2f, ?_⟩
  · rw [expandPool_mk x (L + 1) (by omega) (by omega)]
    simpa using hn
  · rw [expandPool_mk (flipBit L x) (L + 1) (by omega) (by omega)]
    simpa using hrest
  · unfold freePools
    exact flatten_set_replicate 32 L _ (by omega)

/-- Witness for the amended C8 at P = 172.16.0.0/16. -/
theorem split_expand_add_inverse_witness :
    splitPool ⟨[172, 16, 0, 0], cidrMask 16⟩
        = some (⟨[172, 16, 0, 0], cidrMask 17⟩, ⟨flipBit 16 [172, 16, 0, 0], cidrMask 17⟩) ∧
      expandPool ⟨[172, 16, 0, 0], cidrMask 17⟩ = some ⟨[172, 16, 0, 0], cidrMask 16⟩ ∧
      expandPool ⟨flipBit 16 [172, 16, 0, 0], cidrMask 17⟩
        = some ⟨[172, 16, 0, 0], cidrMask 16⟩ ∧
      addPool initState ⟨[172, 16, 0, 0], cidrMask 17⟩
        = Out.ok () ⟨(List.replicate 32 []).set 17 [⟨[172, 16, 0, 0], cidrMask 17⟩], []⟩ ∧
      addPool ⟨(List.replicate 32 []).set 17 [⟨[172, 16, 0, 0], cidrMask 17⟩], []⟩
          ⟨flipBit 16 [172, 16, 0, 0], cidrMask 17⟩
        = Out.ok () ⟨(List.replicate 32 []).set 16 [⟨[172, 16, 0, 0], cidrMask 16⟩], []⟩ ∧
      addPool initState ⟨flipBit 16 [172, 16, 0, 0], cidrMask 17⟩
        = Out.ok ()
            ⟨(List.replicate 32 []).set 17 [⟨flipBit 16 [172, 16, 0, 0], cidrMask 17⟩], []⟩ ∧
      addPool ⟨(List.replicate 32 []).set 17 [⟨flipBit 16 [172, 16, 0, 0], cidrMask 17⟩], []⟩
          ⟨[172, 16, 0, 0], cidrMask 17⟩
        = Out.ok () ⟨(List.replicate 32 []).set 16 [⟨[172, 16, 0, 0], cidrMask 16⟩], []⟩ ∧
      freePools ⟨(List.replicate 32 []).set 16 [⟨[172, 16, 0, 0], cidrMask 16⟩], []⟩
        = [⟨[172, 16, 0, 0], cidrMask 16⟩] :=
  split_expand_add_inverse [172, 16, 0, 0] 16 (by decide) (by decide) (by decide) (by decide)

/-! ### scanSlot characterization -/

theorem hitShift_crashed (o : Option Hit) :
    hitShift o = some Hit.crashed ↔ o = some Hit.crashed := by
  cases o with
  | none => simp [hitShift]
  | some h => cases h <;> simp [hitShift]

theorem hitShift_buddy (o : Option Hit) (i : Nat) :
    hitShift o = some (Hit.buddy i) ↔ ∃ j, i = j + 1 ∧ o = some (Hit.buddy j) := by
  cases o with
  | none => simp [hitShift]
  | some h =>
    cases h with
    | dup => simp [hitShift]
    | buddy j => simp [hitShift, eq_comm]
    | crashed => simp [hitShift]

theorem scanSlot_crashed (q : Pool) (L : Nat) (slot : List Pool)
    (h : scanSlot q L slot = some Hit.crashed) :
    L ≠ 0 ∧ ∃ pi ∈ slot, adjacentPool pi = none := by
  induction slot with
  | nil => simp [scanSlot] at h
  | cons pi rest ih =>
    unfold scanSlot at h
    by_cases h1 : goEqual q.ip pi.ip = true
    · rw [if_pos h1] at h
      simp at h
    · rw [if_neg h1] at h
      by_cases hL : L ≠ 0
      · rw [if_pos hL] at h
        cases hadj : adjacentPool pi with
        | none => exact ⟨hL, pi, by simp, hadj⟩
        | some adj =>
          simp only [hadj] at h
          by_cases h2 : goEqual q.ip adj.ip = true
          · rw [if_pos h2] at h
            simp at h
          · rw [if_neg h2] at h
            rw [hitShift_crashed] at h
            obtain ⟨_, pi', hmem, hadj'⟩ := ih h
            exact ⟨hL, pi', by simp [hmem], hadj'⟩
      · rw [if_neg hL] at h
        rw [hitShift_crashed] at h
        exact absurd (ih h).1 hL

theorem scanSlot_buddy_ne (q : Pool) (L : Nat) (slot : List Pool) (i : Nat)
    (h : scanSlot q L slot = some (Hit.buddy i)) : L ≠ 0 := by
  induction slot generalizing i with
  | nil => simp [scanSlot] at h
  | cons pi rest ih =>
    unfold scanSlot at h
    by_cases h1 : goEqual q.ip pi.ip = true
    · rw [if_pos h1] at h
      simp at h
    · rw [if_neg h1] at h
      by_cases hL : L ≠ 0
      · exact hL
      · rw [if_neg hL] at h
        rw [hitShift_buddy] at h
        obtain ⟨j, _, hj⟩ := h
        exact ih j hj

/-! ### Generic getD/set helper -/

theorem getD_set {α : Type} (ps : List α) (K j : Nat) (v d : α) (hK : K < ps.length) :
    (ps.set K v).getD j d = if K = j then v else ps.getD j d := by
  by_cases h : K = j
  · subst h
    rw [if_pos rfl, List.getD_eq_getElem?_getD, List.getElem?_set_self hK]
    rfl
  · rw [if_neg h, List.getD_eq_getElem?_getD, List.getElem?_set_ne h,
      ← List.getD_eq_getElem?_getD]

theorem masklenOf_ne_zero_mask (q : Pool) (h : masklenOf q ≠ 0) :
    maskSize q.mask = some (masklenOf q) := by
  cases hm : maskSize q.mask with
  | none => exact absurd (by simp [masklenOf, hm]) h
  | some l => simp [masklenOf, hm]

/-! ### Totality of addPoolNoLock below slot 32 -/

theorem addGo_total : ∀ fuel (s : AllocState) (p : Pool), SlotInv s → p.ip.length = 4 →
    masklenOf p ≤ 31 → masklenOf p < fuel →
    ∃ s', (addGo fuel s p).state? = some s' ∧ s'.pools.length = 32 := by
  intro fuel
  induction fuel with
  | zero => intro s p _ _ _ h; omega
  | succ fuel ih =>
    intro s p hinv hip hm hf
    have hq : normalizePool p = some ⟨goAnd p.ip p.mask, p.mask⟩ := normalizePool_mk p hip
    have hmq : masklenOf (⟨goAnd p.ip p.mask, p.mask⟩ : Pool) = masklenOf p := rfl
    have hlt : masklenOf (⟨goAnd p.ip p.mask, p.mask⟩ : Pool) < s.pools.length := by
      rw [hinv.1, hmq]; omega
    have hslot : s.pools[masklenOf (⟨goAnd p.ip p.mask, p.mask⟩ : Pool)]?
        = some (s.pools.getD (masklenOf (⟨goAnd p.ip p.mask, p.mask⟩ : Pool)) []) := by
      rw [List.getD_eq_getElem?_getD, List.getElem?_eq_getElem hlt]
      rfl
    have hwfslot : ∀ pi ∈ s.pools.getD (masklenOf (⟨goAnd p.ip p.mask, p.mask⟩ : Pool)) [],
        poolWfAt pi (masklenOf (⟨goAnd p.ip p.mask, p.mask⟩ : Pool)) := hinv.2 _ hlt
    cases hscan : scanSlot ⟨goAnd p.ip p.mask, p.mask⟩
        (masklenOf (⟨goAnd p.ip p.mask, p.mask⟩ : Pool))
        (s.pools.getD (masklenOf (⟨goAnd p.ip p.mask, p.mask⟩ : Pool)) []) with
    | none =>
      refine ⟨⟨s.pools.set (masklenOf (⟨goAnd p.ip p.mask, p.mask⟩ : Pool))
          ((s.pools.getD (masklenOf (⟨goAnd p.ip p.mask, p.mask⟩ : Pool)) [])
            ++ [⟨goAnd p.ip p.mask, p.mask⟩]), s.allocated⟩, ?_, ?_⟩
      · rw [addGo_append fuel s p _ _ hq hslot hscan]
        rfl
      · simp [hinv.1]
    | some hit =>
      cases hit with
      | dup =>
        exact ⟨s, by rw [addGo_dup fuel s p _ _ hq hslot hscan]; rfl, hinv.1⟩
      | crashed =>
        obtain ⟨hL0, pi, hmem, hadj⟩ := scanSlot_crashed _ _ _ hscan
        have hwf := hwfslot pi hmem
        have hmlpi : masklenOf pi = masklenOf (⟨goAnd p.ip p.mask, p.mask⟩ : Pool) := by
          unfold masklenOf
          rw [hwf.2.2.1, maskSize_cidrMask _ (by rw [hmq]; omega)]
          rfl
        unfold adjacentPool at hadj
        rw [hmlpi, if_neg hL0] at hadj
        simp at hadj
      | buddy i =>
        have hL0 : masklenOf (⟨goAnd p.ip p.mask, p.mask⟩ : Pool) ≠ 0 :=
          scanSlot_buddy_ne _ _ _ i hscan
        have hms : maskSize p.mask = some (masklenOf p) := by
          have := masklenOf_ne_zero_mask ⟨goAnd p.ip p.mask, p.mask⟩ hL0
          simpa [hmq] using this
        have hmask : p.mask = cidrMask (masklenOf p) := (maskSize_some _ _ hms).1
        have hexp : expandPool ⟨goAnd p.ip p.mask, p.mask⟩
            = some ⟨goAnd (goAnd p.ip p.mask) (cidrMask (masklenOf p - 1)),
                cidrMask (masklenOf p - 1)⟩ := by
          unfold expandPool
          rw [if_neg hL0]
          rfl
        have hiplen : (goAnd p.ip p.mask).length = 4 := by
          rw [goAnd_length, hip, hmask, cidrMask_length]
          simp
        have hip' : (goAnd (goAnd p.ip p.mask) (cidrMask (masklenOf p - 1))).length = 4 := by
          rw [goAnd_length, hiplen, cidrMask_length]
          simp
        have hm' : masklenOf (⟨goAnd (goAnd p.ip p.mask) (cidrMask (masklenOf p - 1)),
            cidrMask (masklenOf p - 1)⟩ : Pool) = masklenOf p - 1 :=
          masklenOf_mk _ _ (by omega)
        have hinv2 : SlotInv ⟨s.pools.set (masklenOf (⟨goAnd p.ip p.mask, p.mask⟩ : Pool))
            ((s.pools.getD (masklenOf (⟨goAnd p.ip p.mask, p.mask⟩ : Pool)) []).eraseIdx i),
            s.allocated⟩ := by
          constructor
          · simp [hinv.1]
          · intro j hj p' hp'
            rw [List.length_set] at hj
            rw [getD_set _ _ _ _ _ hlt] at hp'
            by_cases hKj : masklenOf (⟨goAnd p.ip p.mask, p.mask⟩ : Pool) = j
            · rw [if_pos hKj] at hp'
              have := hwfslot p' (List.mem_of_mem_eraseIdx hp')
              rwa [hKj] at this
            · rw [if_neg hKj] at hp'
              exact hinv.2 j hj p' hp'
        obtain ⟨s', h1, h2⟩ := ih _ _ hinv2 hip' (by rw [hm']; omega) (by rw [hm']; omega)
        refine ⟨s', ?_, h2⟩
        rw [addGo_buddy fuel s p _ _ _ i hq hslot hscan hexp]
        exact h1

/-- Amended claim C10.  Whenever the mask's computed prefix length is at
most 31 (and the free structure is well formed, as in every reachable
state), AddPool — including the buddy-merge recursion of addPoolNoLock —
returns normally: every slot access stays inside the 32-slot array, and
the array keeps exactly 32 slots.  At prefix length 32 the code reads
`a.pools[32]`, out of range (see the counterexample). -/
theorem addPool_in_bounds (s : AllocState) (p : Pool) (hinv : SlotInv s)
    (hip : p.ip.length = 4) (hm : masklenOf p ≤ 31) :
    ∃ s', (addPool s p).state? = some s' ∧ s'.pools.length = 32 := by
  unfold addPool
  by_cases hmask : p.mask.length ≠ 4
  · rw [if_pos hmask]
    exact ⟨s, rfl, hinv.1⟩
  · rw [if_neg hmask]
    exact addGo_total 33 s p hinv hip hm (by omega)

/-- Witness for the amended C10: adding 10.0.0.0/16 to a fresh allocator. -/
theorem addPool_in_bounds_witness :
    ∃ s', (addPool initState ⟨[10, 0, 0, 0], [255, 255, 0, 0]⟩).state? = some s' ∧
      s'.pools.length = 32 :=
  addPool_in_bounds initState ⟨[10, 0, 0, 0], [255, 255, 0, 0]⟩ (by decide) (by decide)
    (by decide)

/-! ### RequestPool: scan and split characterization -/

theorem getElem?_eq_getD {α : Type} (ps : List α) (j : Nat) (d : α) (h : j < ps.length) :
    ps[j]? = some (ps.getD j d) := by
  rw [List.getD_eq_getElem?_getD, List.getElem?_eq_getElem h]
  rfl

theorem popFrom_empty : ∀ (t : Nat) (ps : List (List Pool)), t < ps.length →
    (∀ k, k ≤ t → ps.getD k [] = []) → popFrom ps t = PopRes.empty := by
  intro t
  induction t with
  | zero =>
    intro ps hlen hempty
    have h0 : ps[0]? = some [] := by
      rw [getElem?_eq_getD ps 0 [] hlen, hempty 0 (Nat.le_refl 0)]
    simp [popFrom, h0]
  | succ k ih =>
    intro ps hlen hempty
    have hk : ps[k + 1]? = some [] := by
      rw [getElem?_eq_getD ps (k + 1) [] hlen, hempty (k + 1) (Nat.le_refl _)]
    simp only [popFrom, hk]
    exact ih ps (by omega) (fun k' h' => hempty k' (by omega))

theorem popFrom_found : ∀ (t : Nat) (ps : List (List Pool)) (j : Nat) (P : Pool)
    (rest : List Pool), t < ps.length → j ≤ t → ps.getD j [] = P :: rest →
    (∀ k, j < k → k ≤ t → ps.getD k [] = []) →
    popFrom ps t = PopRes.found j P (ps.set j rest) := by
  intro t
  induction t with
  | zero =>
    intro ps j P rest hlen hj hslot _
    have hj0 : j = 0 := by omega
    subst hj0
    have h0 : ps[0]? = some (P :: rest) := by
      rw [getElem?_eq_getD ps 0 [] hlen, hslot]
    simp [popFrom, h0]
  | succ k ih =>
    intro ps j P rest hlen hj hslot hup
    by_cases hjk : j = k + 1
    · subst hjk
      have h0 : ps[k + 1]? = some (P :: rest) := by
        rw [getElem?_eq_getD ps (k + 1) [] hlen, hslot]
      simp [popFrom, h0]
    · have hk : ps[k + 1]? = some [] := by
        rw [getElem?_eq_getD ps (k + 1) [] hlen, hup (k + 1) (by omega) (Nat.le_refl _)]
      simp only [popFrom, hk]
      exact ih ps j P rest (by omega) (by omega) hslot (fun k' h1 h2 => hup k' h1 (by omega))

theorem splitLoop_spec : ∀ (c i : Nat) (ps : List (List Pool)) (x : Bytes),
    x.length = 4 → bytesWf x → goAnd x (cidrMask i) = x → i + c ≤ 31 → ps.length = 32 →
    ∃ ps', splitLoop ⟨x, cidrMask i⟩ ps i c = some (⟨x, cidrMask (i + c)⟩, ps') ∧
      ps'.length = 32 ∧
      (∀ k, k ≤ i → ps'.getD k [] = ps.getD k []) ∧
      (∀ k, i < k → k ≤ i + c →
        ps'.getD k [] = ps.getD k [] ++ [⟨flipBit (k - 1) x, cidrMask k⟩]) ∧
      (∀ k, i + c < k → ps'.getD k [] = ps.getD k []) := by
  intro c
  induction c with
  | zero =>
    intro i ps x _ _ _ _ hps
    refine ⟨ps, by simp [splitLoop], hps, fun k _ => rfl, fun k h1 h2 => by omega,
      fun k _ => rfl⟩
  | succ c ih =>
    intro i ps x hx hw hn hc hps
    have hsplit := splitPool_eq x i hx (by omega) hn
    have hslot : ps[i + 1]? = some (ps.getD (i + 1) []) :=
      getElem?_eq_getD ps (i + 1) [] (by omega)
    have hn1 : goAnd x (cidrMask (i + 1)) = x := normalized_mono x hx hw (by omega) hn
    obtain ⟨ps', h1, h2, h3, h4, h5⟩ := ih (i + 1)
      (ps.set (i + 1) (ps.getD (i + 1) [] ++ [⟨flipBit i x, cidrMask (i + 1)⟩])) x hx hw hn1
      (by omega) (by simp [hps])
    have hadd : i + 1 + c = i + (c + 1) := by omega
    rw [hadd] at h1
    refine ⟨ps', ?_, h2, ?_, ?_, ?_⟩
    · simp only [splitLoop, hsplit, hslot]
      rw [h1]
    · intro k hk
      rw [h3 k (by omega), getD_set _ _ _ _ _ (by omega), if_neg (by omega)]
    · intro k hk1 hk2
      by_cases hke : k = i + 1
      · subst hke
        rw [h3 (i + 1) (Nat.le_refl _), getD_set _ _ _ _ _ (by omega), if_pos rfl]
        simp
      · rw [h4 k (by omega) (by omega), getD_set _ _ _ _ _ (by omega), if_neg (by omega)]
    · intro k hk
      rw [h5 k (by omega), getD_set _ _ _ _ _ (by omega), if_neg (by omega)]

/-! ### Claim C1 -/

/-- Claim C1.  RequestPool(targetLen) (with no specific pool argument, in
any state whose free structure is well formed): rejects targetLen outside
[0, 31] with InvalidMaskLength; fails with PoolExhausted when every slot
from targetLen down to 0 is empty; and otherwise pops the head of the
highest non-empty slot `j ≤ targetLen` — removing exactly that pool and no
other — splits it repeatedly, appending the right half of each split to
slot `k` for `k = j+1 .. targetLen` and keeping the left half, and returns
the final left half: a pool with the popped network address and prefix
length exactly targetLen, whose key is marked allocated. -/
theorem requestPool_spec (s : AllocState) (t : Int) (hinv : SlotInv s) :
    ((t < 0 ∨ 31 < t) → requestPool s t none = Out.err AErr.invalidMaskLength s) ∧
    (0 ≤ t → t ≤ 31 →
      ((∀ k, k ≤ t.toNat → s.pools.getD k [] = []) →
        requestPool s t none = Out.err AErr.poolExhausted s) ∧
      (∀ j P rest, j ≤ t.toNat → s.pools.getD j [] = P :: rest →
        (∀ k, j < k → k ≤ t.toNat → s.pools.getD k [] = []) →
        ∃ ps', requestPool s t none
            = Out.ok ⟨P.ip, cidrMask t.toNat⟩
                ⟨ps', keyInsert s.allocated (poolKey ⟨P.ip, cidrMask t.toNat⟩)⟩ ∧
          masklenOf ⟨P.ip, cidrMask t.toNat⟩ = t.toNat ∧
          ps'.length = 32 ∧
          ps'.getD j [] = rest ∧
          (∀ k, k < j → ps'.getD k [] = s.pools.getD k []) ∧
          (∀ k, j < k → k ≤ t.toNat →
            ps'.getD k [] = s.pools.getD k [] ++ [⟨flipBit (k - 1) P.ip, cidrMask k⟩]) ∧
          (∀ k, t.toNat < k → ps'.getD k [] = s.pools.getD k []))) := by
  constructor
  · intro hrange
    unfold requestPool
    rw [if_neg (by simp), if_pos hrange]
  · intro ht0 ht31
    constructor
    · intro hempty
      unfold requestPool
      rw [if_neg (by simp), if_neg (by omega)]
      rw [popFrom_empty t.toNat s.pools (by rw [hinv.1]; omega) hempty]
    · intro j P rest hj hslot hup
      have hwfP : poolWfAt P j := by
        refine hinv.2 j (by rw [hinv.1]; omega) P ?_
        rw [hslot]
        simp
      obtain ⟨Pip, Pmask⟩ := P
      have hPmask : Pmask = cidrMask j := hwfP.2.2.1
      subst hPmask
      have hx4 : Pip.length = 4 := hwfP.1
      have hwb : bytesWf Pip := hwfP.2.1
      have hnorm : goAnd Pip (cidrMask j) = Pip := hwfP.2.2.2
      obtain ⟨ps', h1, h2, h3, h4, h5⟩ := splitLoop_spec (t.toNat - j) j (s.pools.set j rest)
        Pip hx4 hwb hnorm (by omega) (by simp [hinv.1])
      have hjc : j + (t.toNat - j) = t.toNat := by omega
      rw [hjc] at h1 h4 h5
      refine ⟨ps', ?_, masklenOf_mk Pip t.toNat (by omega), h2, ?_, ?_, ?_, ?_⟩
      · unfold requestPool
        rw [if_neg (by simp), if_neg (by omega)]
        rw [popFrom_found t.toNat s.pools j ⟨Pip, cidrMask j⟩ rest (by rw [hinv.1]; omega)
          hj hslot hup]
        simp only [h1]
      · rw [h3 j (Nat.le_refl j), getD_set _ _ _ _ _ (by rw [hinv.1]; omega), if_pos rfl]
      · intro k hk
        rw [h3 k (by omega), getD_set _ _ _ _ _ (by rw [hinv.1]; omega), if_neg (by omega)]
      · intro k hk1 hk2
        rw [h4 k hk1 hk2, getD_set _ _ _ _ _ (by rw [hinv.1]; omega), if_neg (by omega)]
      · intro k hk
        rw [h5 k hk, getD_set _ _ _ _ _ (by rw [hinv.1]; omega), if_neg (by omega)]

/-- Witness for C1: requesting a /24 from an allocator holding 172.16.0.0/16. -/
theorem requestPool_spec_witness :
    ∃ ps', requestPool
        ⟨(List.replicate 32 []).set 16 [⟨[172, 16, 0, 0], cidrMask 16⟩], []⟩ 24 none
      = Out.ok ⟨[172, 16, 0, 0], cidrMask 24⟩
          ⟨ps', keyInsert [] (poolKey ⟨[172, 16, 0, 0], cidrMask 24⟩)⟩ ∧
      masklenOf ⟨[172, 16, 0, 0], cidrMask 24⟩ = 24 ∧
      ps'.length = 32 ∧
      ps'.getD 16 [] = [] ∧
      (∀ k, k < 16 →
        ps'.getD k []
          = ((List.replicate 32 []).set 16 [⟨[172, 16, 0, 0], cidrMask 16⟩]).getD k []) ∧
      (∀ k, 16 < k → k ≤ 24 →
        ps'.getD k []
          = ((List.replicate 32 []).set 16 [⟨[172, 16, 0, 0], cidrMask 16⟩]).getD k []
              ++ [⟨flipBit (k - 1) [172, 16, 0, 0], cidrMask k⟩]) ∧
      (∀ k, 24 < k →
        ps'.getD k []
          = ((List.replicate 32 []).set 16 [⟨[172, 16, 0, 0], cidrMask 16⟩]).getD k []) := by
  have h := (requestPool_spec
    ⟨(List.replicate 32 []).set 16 [⟨[172, 16, 0, 0], cidrMask 16⟩], []⟩ 24 (by decide)).2
    (by decide) (by decide)
  exact h.2 16 ⟨[172, 16, 0, 0], cidrMask 16⟩ [] (by decide) (by decide)
    (by
      intro k h1 h2
      rw [getD_set _ _ _ _ _ (by rw [List.length_replicate]; omega), if_neg (by omega)]
      rw [List.getD_eq_getElem?_getD, List.getElem?_replicate, if_pos (by omega)]
      rfl)

/-! ### CIDR containment geometry -/

theorem byteAndCompose : ∀ r, r < 9 → ∀ t, t < 9 → r ≤ t → ∀ b, b < 256 →
    b &&& (256 - 2 ^ (8 - t)) &&& (256 - 2 ^ (8 - r)) = b &&& (256 - 2 ^ (8 - r)) := by
  decide

theorem byteMaskStep : ∀ r, 1 ≤ r → r < 9 → ∀ b, b < 256 →
    b &&& (256 - 2 ^ (8 - r)) = b &&& (256 - 2 ^ (8 - (r - 1))) ∨
    b &&& (256 - 2 ^ (8 - r)) = (b &&& (256 - 2 ^ (8 - (r - 1)))) ^^^ 2 ^ (8 - r) := by
  decide

theorem goAnd_bytesWf (a b : Bytes) (ha : bytesWf a) : bytesWf (goAnd a b) := by
  intro v hv
  simp only [goAnd, List.mem_map, List.mem_range] at hv
  obtain ⟨i, _, rfl⟩ := hv
  have hlt : a.getD i 255 < 256 := by
    by_cases hi : i < a.length
    · rw [getD_lt a i 255 hi]
      exact bytesWf_getD a ha i hi
    · rw [List.getD_eq_getElem?_getD, List.getElem?_eq_none (by omega)]
      norm_num
  exact Nat.lt_of_le_of_lt Nat.and_le_left hlt

theorem maskAt_length (y : Bytes) (hy : y.length = 4) (K : Nat) :
    (goAnd y (cidrMask K)).length = 4 := by
  rw [goAnd_length, hy, cidrMask_length]
  simp

theorem maskAt_compose (y : Bytes) (hy : y.length = 4) (hw : bytesWf y) {K T : Nat}
    (hKT : K ≤ T) : goAnd (goAnd y (cidrMask T)) (cidrMask K) = goAnd y (cidrMask K) := by
  refine list4_ext _ _ (maskAt_length _ (maskAt_length y hy T) K) (maskAt_length y hy K) ?_
  intro j hj
  rw [goAnd_cidr_getD _ (maskAt_length y hy T) K j hj, goAnd_cidr_getD y hy T j hj,
    goAnd_cidr_getD y hy K j hj]
  have hb : y.getD j 0 < 256 := bytesWf_getD y hw j (by omega)
  exact byteAndCompose _ (by omega) _ (by omega) (by omega) _ hb

theorem maskAt_idem (y : Bytes) (hy : y.length = 4) (hw : bytesWf y) (K : Nat) :
    goAnd (goAnd y (cidrMask K)) (cidrMask K) = goAnd y (cidrMask K) :=
  maskAt_compose y hy hw (Nat.le_refl K)

theorem contains_spec (xa : Bytes) (K : Nat) (y : Bytes) (ha : xa.length = 4)
    (hy : y.length = 4) (hn : goAnd xa (cidrMask K) = xa) :
    goContains ⟨xa, cidrMask K⟩ y = true ↔ goAnd y (cidrMask K) = xa := by
  rw [norm_pointwise xa ha K] at hn
  unfold goContains
  simp only [hy, ha, cidrMask_length, beq_self_eq_true, Bool.true_and, List.all_eq_true,
    List.mem_range, beq_iff_eq, decide_eq_true_eq]
  constructor
  · intro h
    refine list4_ext _ _ (maskAt_length y hy K) ha ?_
    intro j hj
    rw [goAnd_cidr_getD y hy K j hj]
    have := h j hj
    rw [cidrMask_getD K j hj, hn j hj] at this
    exact this.symm
  · intro h j hj
    rw [cidrMask_getD K j hj, hn j hj]
    have := congrArg (fun l => l.getD j 0) h
    simp only at this
    rw [goAnd_cidr_getD y hy K j hj] at this
    exact this.symm

theorem overlap_spec (xa : Bytes) (Ka : Nat) (xb : Bytes) (Kb : Nat)
    (ha : xa.length = 4) (hb : xb.length = 4)
    (hna : goAnd xa (cidrMask Ka) = xa) (hnb : goAnd xb (cidrMask Kb) = xb) :
    poolOverlap ⟨xa, cidrMask Ka⟩ ⟨xb, cidrMask Kb⟩ = true ↔
      goAnd xb (cidrMask Ka) = xa ∨ goAnd xa (cidrMask Kb) = xb := by
  unfold poolOverlap
  simp only [Bool.or_eq_true]
  rw [show goAnd xb (cidrMask Kb) = xb from hnb, show goAnd xa (cidrMask Ka) = xa from hna]
  rw [contains_spec xa Ka xb ha hb hna, contains_spec xb Kb xa hb ha hnb]

theorem overlap_false_iff (xa : Bytes) (Ka : Nat) (xb : Bytes) (Kb : Nat)
    (ha : xa.length = 4) (hb : xb.length = 4)
    (hna : goAnd xa (cidrMask Ka) = xa) (hnb : goAnd xb (cidrMask Kb) = xb) :
    poolOverlap ⟨xa, cidrMask Ka⟩ ⟨xb, cidrMask Kb⟩ = false ↔
      goAnd xb (cidrMask Ka) ≠ xa ∧ goAnd xa (cidrMask Kb) ≠ xb := by
  rw [← Bool.not_eq_true, overlap_spec xa Ka xb Kb ha hb hna hnb]
  tauto

theorem overlap_comm (a b : Pool) : poolOverlap a b = poolOverlap b a := by
  unfold poolOverlap
  exact Bool.or_comm _ _

/-- Transfer of overlap through nesting: a pool contained in a larger pool
overlaps only what the larger pool overlaps. -/
theorem overlap_trans_sub (v : Bytes) (S : Nat) (w : Bytes) (T : Nat) (xy : Bytes) (Ky : Nat)
    (hv : v.length = 4) (hwl : w.length = 4) (hxy : xy.length = 4)
    (hwv : bytesWf v) (hww : bytesWf w) (hwy : bytesWf xy)
    (hST : S ≤ T)
    (hnv : goAnd v (cidrMask S) = v) (hnw : goAnd w (cidrMask T) = w)
    (hny : goAnd xy (cidrMask Ky) = xy)
    (hsub : goAnd w (cidrMask S) = v)
    (hov : poolOverlap ⟨w, cidrMask T⟩ ⟨xy, cidrMask Ky⟩ = true) :
    poolOverlap ⟨v, cidrMask S⟩ ⟨xy, cidrMask Ky⟩ = true := by
  rw [overlap_spec w T xy Ky hwl hxy hnw hny] at hov
  rw [overlap_spec v S xy Ky hv hxy hnv hny]
  rcases hov with hov | hov
  · left
    calc goAnd xy (cidrMask S)
        = goAnd (goAnd xy (cidrMask T)) (cidrMask S) := (maskAt_compose xy hxy hwy hST).symm
      _ = goAnd w (cidrMask S) := by rw [hov]
      _ = v := hsub
  · by_cases hKS : Ky ≤ S
    · right
      calc goAnd v (cidrMask Ky)
          = goAnd (goAnd w (cidrMask S)) (cidrMask Ky) := by rw [hsub]
        _ = goAnd w (cidrMask Ky) := maskAt_compose w hwl hww hKS
        _ = xy := hov
    · left
      calc goAnd xy (cidrMask S)
          = goAnd (goAnd w (cidrMask Ky)) (cidrMask S) := by rw [hov]
        _ = goAnd w (cidrMask S) := maskAt_compose w hwl hww (by omega)
        _ = v := hsub

/-- The two halves of a split do not overlap. -/
theorem split_halves_disjoint (v : Bytes) (L : Nat) (hv : v.length = 4) (hwv : bytesWf v)
    (hL : L ≤ 31) (hn : goAnd v (cidrMask L) = v) :
    poolOverlap ⟨v, cidrMask (L + 1)⟩ ⟨flipBit L v, cidrMask (L + 1)⟩ = false := by
  have hnl : goAnd v (cidrMask (L + 1)) = v := normalized_mono v hv hwv (by omega) hn
  have hnr : goAnd (flipBit L v) (cidrMask (L + 1)) = flipBit L v :=
    flip_norm_succ v hv hwv hL hn
  rw [overlap_false_iff v (L + 1) (flipBit L v) (L + 1) hv
    (by rw [flipBit_length, hv]) hnl hnr]
  constructor
  · rw [hnr]
    exact fun h => flip_ne v hv hwv hL h
  · rw [hnl]
    exact fun h => flip_ne v hv hwv hL h.symm

/-- Masking at `L` refines masking at `L - 1` by at most one flipped bit. -/
theorem maskAt_step (y : Bytes) (hy : y.length = 4) (hwy : bytesWf y) (L : Nat)
    (hL1 : 1 ≤ L) (hL : L ≤ 32) :
    goAnd y (cidrMask L) = goAnd y (cidrMask (L - 1)) ∨
    goAnd y (cidrMask L) = flipBit (L - 1) (goAnd y (cidrMask (L - 1))) := by
  have hq : (L - 1) / 8 < 4 := by omega
  have hbq : y.getD ((L - 1) / 8) 0 < 256 := bytesWf_getD y hwy _ (by omega)
  have hrq : min 8 (L - 8 * ((L - 1) / 8)) = (L - 1) % 8 + 1 := by omega
  have hrq' : min 8 (L - 1 - 8 * ((L - 1) / 8)) = (L - 1) % 8 := by omega
  have hmbq : maskByte L ((L - 1) / 8) = 256 - 2 ^ (8 - ((L - 1) % 8 + 1)) := by
    unfold maskByte
    rw [hrq]
  have hmbq' : maskByte (L - 1) ((L - 1) / 8) = 256 - 2 ^ (8 - (L - 1) % 8) := by
    unfold maskByte
    rw [hrq']
  have hother : ∀ j, j < 4 → j ≠ (L - 1) / 8 → maskByte L j = maskByte (L - 1) j := by
    intro j hj hne
    unfold maskByte
    congr 2
    omega
  rcases byteMaskStep ((L - 1) % 8 + 1) (by omega) (by omega) (y.getD ((L - 1) / 8) 0) hbq
    with hcase | hcase
  · left
    refine list4_ext _ _ (maskAt_length y hy L) (maskAt_length y hy (L - 1)) ?_
    intro j hj
    rw [goAnd_cidr_getD y hy L j hj, goAnd_cidr_getD y hy (L - 1) j hj]
    by_cases hje : j = (L - 1) / 8
    · subst hje
      rw [hmbq, hmbq']
      simpa using hcase
    · rw [hother j hj hje]
  · right
    have hlen1 : (goAnd y (cidrMask (L - 1))).length = 4 := maskAt_length y hy (L - 1)
    refine list4_ext _ _ (maskAt_length y hy L)
      (by rw [flipBit_length, hlen1]) ?_
    intro j hj
    rw [goAnd_cidr_getD y hy L j hj, flipBit_getD (L - 1) _ hlen1 j hj]
    by_cases hje : (L - 1) / 8 = j
    · rw [if_pos hje, ← hje]
      rw [hmbq, goAnd_cidr_getD y hy (L - 1) _ (by omega), hmbq']
      have h78 : 7 - (L - 1) % 8 = 8 - ((L - 1) % 8 + 1) := by omega
      rw [h78]
      simpa using hcase
    · rw [if_neg hje, hother j hj (fun h => hje h.symm),
        goAnd_cidr_getD y hy (L - 1) j hj]

theorem byteFlipInsideGen : ∀ jr, jr < 8 → ∀ rq, rq < 9 → jr < rq → ∀ b, b < 256 →
    b &&& (256 - 2 ^ (8 - rq)) = b →
    (b ^^^ 2 ^ (7 - jr)) &&& (256 - 2 ^ (8 - rq)) = b ^^^ 2 ^ (7 - jr) := by
  decide

theorem flipBit_bytesWf (x : Bytes) (hx : x.length = 4) (hw : bytesWf x) (j : Nat)
    (hj : j ≤ 31) : bytesWf (flipBit j x) := by
  intro b hb
  obtain ⟨k, hk, hkb⟩ := List.mem_iff_getElem.mp hb
  have hk4 : k < 4 := by
    have := flipBit_length j x
    omega
  have : (flipBit j x).getD k 0 = b := by
    rw [List.getD_eq_getElem?_getD, List.getElem?_eq_getElem hk]
    simpa using hkb
  rw [← this, flipBit_getD j x hx k hk4]
  by_cases hq : j / 8 = k
  · rw [if_pos hq]
    exact byteFlipBound _ (by omega) _ (bytesWf_getD x hw k (by omega))
  · rw [if_neg hq]
    exact bytesWf_getD x hw k (by omega)

/-- Flipping a bit inside the prefix keeps the value normalized. -/
theorem flip_norm_inside (x : Bytes) (hx : x.length = 4) (hw : bytesWf x) {j L : Nat}
    (hjL : j < L) (hL : L ≤ 32) (hn : goAnd x (cidrMask L) = x) :
    goAnd (flipBit j x) (cidrMask L) = flipBit j x := by
  have hlen : (flipBit j x).length = 4 := by rw [flipBit_length, hx]
  rw [norm_pointwise _ hlen]
  rw [norm_pointwise x hx] at hn
  intro k hk
  rw [flipBit_getD j x hx k hk]
  have hb : x.getD k 0 < 256 := bytesWf_getD x hw k (by omega)
  by_cases hq : j / 8 = k
  · rw [if_pos hq]
    have hmb : maskByte L k = 256 - 2 ^ (8 - min 8 (L - 8 * k)) := rfl
    have hrange : j % 8 < min 8 (L - 8 * k) := by omega
    rw [hmb]
    exact byteFlipInsideGen (j % 8) (by omega) _ (by omega) hrange _ hb
      (by rw [← hmb]; exact hn k hk)
  · rw [if_neg hq]
    exact hn k hk

/-- Overlap with a parent block implies overlap with one of its two
halves. -/
theorem overlap_parent_split (v : Bytes) (L : Nat) (xy : Bytes) (Ky : Nat)
    (hv : v.length = 4) (hxy : xy.length = 4) (hwv : bytesWf v) (hwy : bytesWf xy)
    (hL1 : 1 ≤ L) (hL : L ≤ 32)
    (hn : goAnd v (cidrMask L) = v) (hny : goAnd xy (cidrMask Ky) = xy)
    (hov : poolOverlap ⟨goAnd v (cidrMask (L - 1)), cidrMask (L - 1)⟩
        ⟨xy, cidrMask Ky⟩ = true) :
    poolOverlap ⟨v, cidrMask L⟩ ⟨xy, cidrMask Ky⟩ = true ∨
    poolOverlap ⟨flipBit (L - 1) v, cidrMask L⟩ ⟨xy, cidrMask Ky⟩ = true := by
  have hpv : (goAnd v (cidrMask (L - 1))).length = 4 := maskAt_length v hv (L - 1)
  have hwpv : bytesWf (goAnd v (cidrMask (L - 1))) := goAnd_bytesWf v _ hwv
  have hnpv : goAnd (goAnd v (cidrMask (L - 1))) (cidrMask (L - 1))
      = goAnd v (cidrMask (L - 1)) := maskAt_idem v hv hwv (L - 1)
  have hfv : (flipBit (L - 1) v).length = 4 := by rw [flipBit_length, hv]
  have hwfv : bytesWf (flipBit (L - 1) v) := by
    intro b hb
    obtain ⟨j, hj, hjb⟩ := List.mem_iff_getElem.mp hb
    have : (flipBit (L - 1) v).getD j 0 = b := by
      rw [List.getD_eq_getElem?_getD, List.getElem?_eq_getElem hj]
      simpa using hjb
    rw [← this, flipBit_getD (L - 1) v hv j (by omega)]
    by_cases hq : (L - 1) / 8 = j
    · rw [if_pos hq]
      exact byteFlipBound _ (by omega) _ (bytesWf_getD v hwv j (by omega))
    · rw [if_neg hq]
      exact bytesWf_getD v hwv j (by omega)
  -- the two candidate children of the parent
  have hflipflip : flipBit (L - 1) (flipBit (L - 1) v) = v :=
    flipBit_flipBit v (L - 1) (by omega)
  have hvchild := maskAt_step v hv hwv L hL1 hL
  rw [hn] at hvchild
  rw [overlap_spec _ (L - 1) xy Ky hpv hxy hnpv hny] at hov
  rcases hov with hov | hov
  · -- the network of y, masked at L, is one of the two children
    have hychild := maskAt_step xy hxy hwy L hL1 hL
    rw [hov] at hychild
    rcases hvchild with hvc | hvc <;> rcases hychild with hyc | hyc
    · left
      rw [overlap_spec v L xy Ky hv hxy hn hny]
      left
      rw [hyc, ← hvc]
    · right
      rw [overlap_spec _ L xy Ky hfv hxy (flip_norm_inside v hv hwv (by omega : L - 1 < L) hL hn) hny]
      left
      rw [hyc, ← hvc]
    · right
      rw [overlap_spec _ L xy Ky hfv hxy
        (flip_norm_inside v hv hwv (by omega : L - 1 < L) hL hn) hny]
      left
      have hpv2 : flipBit (L - 1) v = goAnd v (cidrMask (L - 1)) := by
        conv_lhs => rw [hvc]
        exact flipBit_flipBit _ (L - 1) (by rw [hpv]; omega)
      rw [hyc, ← hpv2]
    · left
      rw [overlap_spec v L xy Ky hv hxy hn hny]
      left
      rw [hyc, ← hvc]
  · by_cases hKL : Ky ≤ L - 1
    · left
      rw [overlap_spec v L xy Ky hv hxy hn hny]
      right
      calc goAnd v (cidrMask Ky)
          = goAnd (goAnd v (cidrMask (L - 1))) (cidrMask Ky) :=
            (maskAt_compose v hv hwv hKL).symm
        _ = xy := hov
    · have hya : goAnd xy (cidrMask (L - 1)) = goAnd v (cidrMask (L - 1)) := by
        rw [← hov, maskAt_compose _ hpv hwpv (by omega), hnpv]
      have : poolOverlap ⟨goAnd v (cidrMask (L - 1)), cidrMask (L - 1)⟩
          ⟨xy, cidrMask Ky⟩ = true := by
        rw [overlap_spec _ (L - 1) xy Ky hpv hxy hnpv hny]
        left
        exact hya
      have hychild := maskAt_step xy hxy hwy L hL1 hL
      rw [hya] at hychild
      rcases hvchild with hvc | hvc <;> rcases hychild with hyc | hyc
      · left
        rw [overlap_spec v L xy Ky hv hxy hn hny]
        left
        rw [hyc, ← hvc]
      · right
        rw [overlap_spec _ L xy Ky hfv hxy (flip_norm_inside v hv hwv (by omega : L - 1 < L) hL hn) hny]
        left
        rw [hyc, ← hvc]
      · right
        rw [overlap_spec _ L xy Ky hfv hxy
          (flip_norm_inside v hv hwv (by omega : L - 1 < L) hL hn) hny]
        left
        have hpv2 : flipBit (L - 1) v = goAnd v (cidrMask (L - 1)) := by
          conv_lhs => rw [hvc]
          exact flipBit_flipBit _ (L - 1) (by rw [hpv]; omega)
        rw [hyc, ← hpv2]
      · left
        rw [overlap_spec v L xy Ky hv hxy hn hny]
        left
        rw [hyc, ← hvc]

/-! ### Flatten decomposition and permutation helpers -/

theorem flatten_set_decomp {α : Type} : ∀ (ps : List (List α)) (K : Nat) (slot : List α),
    ps[K]? = some slot → ∃ A B, ps.flatten = A ++ slot ++ B ∧
      ∀ slot', (ps.set K slot').flatten = A ++ slot' ++ B := by
  intro ps
  induction ps with
  | nil => intro K slot h; simp at h
  | cons hd tl ih =>
    intro K slot h
    cases K with
    | zero =>
      simp only [List.getElem?_cons_zero, Option.some.injEq] at h
      subst h
      exact ⟨[], tl.flatten, by simp, fun slot' => by simp⟩
    | succ k =>
      simp only [List.getElem?_cons_succ] at h
      obtain ⟨A, B, h1, h2⟩ := ih k slot h
      refine ⟨hd ++ A, B, by simp [h1], fun slot' => by simp [h2 slot']⟩

theorem slot_decomp {α : Type} (slot : List α) (i : Nat) (pi : α) (h : slot[i]? = some pi) :
    slot = slot.take i ++ pi :: slot.drop (i + 1) ∧
    slot.eraseIdx i = slot.take i ++ slot.drop (i + 1) := by
  have hi : i < slot.length := by
    by_contra hc
    rw [List.getElem?_eq_none (by omega)] at h
    simp at h
  constructor
  · conv_lhs => rw [← List.take_append_drop i slot]
    rw [List.drop_eq_getElem_cons hi]
    rw [List.getElem?_eq_getElem hi] at h
    simp only [Option.some.injEq] at h
    rw [h]
  · exact List.eraseIdx_eq_take_drop_succ slot i

theorem overlap_symmrel : Symmetric (fun a b : Pool => poolOverlap a b = false) := by
  intro a b h
  rw [overlap_comm]
  exact h

theorem freePools_wf (s : AllocState) (hinv : SlotInv s) :
    ∀ x ∈ freePools s, ∃ K, K ≤ 31 ∧ poolWfAt x K := by
  intro x hx
  unfold freePools at hx
  rw [List.mem_flatten] at hx
  obtain ⟨l, hl, hxl⟩ := hx
  obtain ⟨K, hK, hKl⟩ := List.mem_iff_getElem.mp hl
  have h32 := hinv.1
  refine ⟨K, by omega, ?_⟩
  have : s.pools.getD K [] = l := by
    rw [List.getD_eq_getElem?_getD, List.getElem?_eq_getElem hK]
    simpa using hKl
  exact hinv.2 K (by omega) x (by rw [this]; exact hxl)

theorem poolWfAt_eta (x : Pool) (K : Nat) (h : poolWfAt x K) : x = ⟨x.ip, cidrMask K⟩ := by
  cases x
  simpa using h.2.2.1

theorem scanSlot_buddy_spec (q : Pool) (L : Nat) : ∀ (slot : List Pool) (i : Nat),
    scanSlot q L slot = some (Hit.buddy i) →
    L ≠ 0 ∧ ∃ pi adj, slot[i]? = some pi ∧ adjacentPool pi = some adj ∧
      goEqual q.ip adj.ip = true := by
  intro slot
  induction slot with
  | nil => intro i h; simp [scanSlot] at h
  | cons pi rest ih =>
    intro i h
    unfold scanSlot at h
    by_cases h1 : goEqual q.ip pi.ip = true
    · rw [if_pos h1] at h
      simp at h
    · rw [if_neg h1] at h
      by_cases hL : L ≠ 0
      · rw [if_pos hL] at h
        cases hadj : adjacentPool pi with
        | none =>
          rw [hadj] at h
          simp at h
        | some adj =>
          simp only [hadj] at h
          by_cases h2 : goEqual q.ip adj.ip = true
          · rw [if_pos h2] at h
            simp only [Option.some.injEq] at h
            cases h
            exact ⟨hL, pi, adj, by simp, hadj, h2⟩
          · rw [if_neg h2] at h
            rw [hitShift_buddy] at h
            obtain ⟨j, rfl, hj⟩ := h
            obtain ⟨_, pi', adj', hmem, hadj', heq⟩ := ih j hj
            exact ⟨hL, pi', adj', by simpa using hmem, hadj', heq⟩
      · rw [if_neg hL] at h
        rw [hitShift_buddy] at h
        obtain ⟨j, rfl, hj⟩ := h
        exact absurd (ih j hj).1 hL

theorem addGo_crash_scan (fuel : Nat) (s : AllocState) (p q : Pool) (slot : List Pool)
    (hq : normalizePool p = some q) (hslot : s.pools[masklenOf q]? = some slot)
    (hscan : scanSlot q (masklenOf q) slot = some Hit.crashed) :
    addGo (fuel + 1) s p = Out.crash := by
  simp [addGo, hq, hslot, hscan]

/-! ### Preservation of the no-overlap invariant by addPoolNoLock -/

theorem addGo_preserves : ∀ fuel (s : AllocState) (xq : Bytes) (L : Nat),
    SlotInv s →
    List.Pairwise (fun a b => poolOverlap a b = false) (freePools s) →
    xq.length = 4 → bytesWf xq → L ≤ 31 → goAnd xq (cidrMask L) = xq →
    (∀ x ∈ freePools s, poolOverlap ⟨xq, cidrMask L⟩ x = false) →
    L < fuel →
    ∀ s', (addGo fuel s ⟨xq, cidrMask L⟩).state? = some s' →
      SlotInv s' ∧ s'.allocated = s.allocated ∧
      List.Pairwise (fun a b => poolOverlap a b = false) (freePools s') ∧
      (∀ y : Pool, wfPool y →
        (∀ x ∈ freePools s, poolOverlap x y = false) →
        poolOverlap ⟨xq, cidrMask L⟩ y = false →
        ∀ x ∈ freePools s', poolOverlap x y = false) := by
  intro fuel
  induction fuel with
  | zero => intro s xq L _ _ _ _ _ _ _ h; omega
  | succ fuel ih =>
    intro s xq L hinv hpw hx4 hxw hL hn hdisj hf s' hs'
    have hq : normalizePool ⟨xq, cidrMask L⟩ = some ⟨xq, cidrMask L⟩ := by
      rw [normalizePool_mk _ hx4]
      simp [hn]
    have hml : masklenOf (⟨xq, cidrMask L⟩ : Pool) = L := masklenOf_mk xq L (by omega)
    have hlt : masklenOf (⟨xq, cidrMask L⟩ : Pool) < s.pools.length := by
      rw [hinv.1, hml]; omega
    have hslot : s.pools[masklenOf (⟨xq, cidrMask L⟩ : Pool)]?
        = some (s.pools.getD L []) := by
      rw [hml]
      exact getElem?_eq_getD s.pools L [] (by rw [hinv.1]; omega)
    have hwfslot : ∀ pi ∈ s.pools.getD L [], poolWfAt pi L := by
      have := hinv.2 L (by rw [hinv.1]; omega)
      exact this
    obtain ⟨A, B, hAB, hset⟩ := flatten_set_decomp s.pools L (s.pools.getD L [])
      (getElem?_eq_getD s.pools L [] (by rw [hinv.1]; omega))
    cases hscan : scanSlot ⟨xq, cidrMask L⟩ (masklenOf (⟨xq, cidrMask L⟩ : Pool))
        (s.pools.getD L []) with
    | none =>
      rw [addGo_append fuel s _ _ _ hq hslot hscan] at hs'
      simp only [Out.state?, Option.some.injEq] at hs'
      subst hs'
      have hfp : freePools ⟨s.pools.set (masklenOf (⟨xq, cidrMask L⟩ : Pool))
          (s.pools.getD L [] ++ [⟨xq, cidrMask L⟩]), s.allocated⟩
          = A ++ (s.pools.getD L [] ++ [⟨xq, cidrMask L⟩]) ++ B := by
        unfold freePools
        rw [hml]
        exact hset _
      have hperm : List.Perm (freePools ⟨s.pools.set (masklenOf (⟨xq, cidrMask L⟩ : Pool))
          (s.pools.getD L [] ++ [⟨xq, cidrMask L⟩]), s.allocated⟩)
          (⟨xq, cidrMask L⟩ :: freePools s) := by
        rw [hfp]
        have h1 : A ++ (s.pools.getD L [] ++ [⟨xq, cidrMask L⟩]) ++ B
            = (A ++ s.pools.getD L []) ++ ⟨xq, cidrMask L⟩ :: B := by
          simp
        rw [h1]
        have h2 := @List.perm_middle Pool ⟨xq, cidrMask L⟩ (A ++ s.pools.getD L []) B
        refine h2.trans ?_
        have h3 : freePools s = A ++ s.pools.getD L [] ++ B := by
          unfold freePools
          rw [hAB]
        rw [h3]
      refine ⟨?_, rfl, ?_, ?_⟩
      · constructor
        · simp [hinv.1]
        · intro j hj p' hp'
          rw [List.length_set] at hj
          rw [hml] at hp'
          rw [getD_set _ _ _ _ _ (by rw [hinv.1]; omega)] at hp'
          by_cases hLj : L = j
          · rw [if_pos hLj] at hp'
            rw [List.mem_append] at hp'
            rcases hp' with hp' | hp'
            · subst hLj
              exact hwfslot p' hp'
            · simp only [List.mem_singleton] at hp'
              subst hp'
              subst hLj
              exact ⟨hx4, hxw, rfl, hn⟩
          · rw [if_neg hLj] at hp'
            exact hinv.2 j hj p' hp'
      · refine (List.Pairwise.perm ?_ hperm.symm (fun hab => overlap_symmrel hab))
        rw [List.pairwise_cons]
        exact ⟨fun x hx => hdisj x hx, hpw⟩
      · intro y hy hyfree hyq x hx
        rcases List.mem_cons.mp (hperm.mem_iff.mp hx) with rfl | hxs
        · exact hyq
        · exact hyfree x hxs
    | some hit =>
      cases hit with
      | dup =>
        rw [addGo_dup fuel s _ _ _ hq hslot hscan] at hs'
        simp only [Out.state?, Option.some.injEq] at hs'
        subst hs'
        exact ⟨hinv, rfl, hpw, fun y _ hyfree _ x hx => hyfree x hx⟩
      | crashed =>
        rw [addGo_crash_scan fuel s _ _ _ hq hslot hscan] at hs'
        simp [Out.state?] at hs'
      | buddy i =>
        obtain ⟨hL0, pi, adj, hpi, hadj, heq⟩ := scanSlot_buddy_spec _ _ _ i hscan
        rw [hml] at hL0
        have hwfpi : poolWfAt pi L := hwfslot pi (by
          obtain ⟨h1, _⟩ := slot_decomp _ i pi hpi
          rw [h1]
          simp)
        have hpieta : pi = ⟨pi.ip, cidrMask L⟩ := poolWfAt_eta pi L hwfpi
        have hmlpi : masklenOf pi = L := by
          rw [hpieta]
          exact masklenOf_mk _ _ (by omega)
        have hadj2 : adj = ⟨flipBit (L - 1) pi.ip, pi.mask⟩ := by
          unfold adjacentPool at hadj
          rw [hmlpi, if_neg hL0] at hadj
          simp only [Option.some.injEq] at hadj
          exact hadj.symm
        have hxq_eq : xq = flipBit (L - 1) pi.ip := by
          have := (goEqual_iff _ _).mp heq
          rw [hadj2] at this
          exact this
        have hexp : expandPool ⟨xq, cidrMask L⟩
            = some ⟨goAnd xq (cidrMask (L - 1)), cidrMask (L - 1)⟩ := by
          unfold expandPool
          rw [hml, if_neg hL0]
        rw [addGo_buddy fuel s _ _ _ _ i hq hslot hscan hexp] at hs'
        -- decompose the slot and the free pools
        obtain ⟨hslotdec, herase⟩ := slot_decomp _ i pi hpi
        have hset2 := hset ((s.pools.getD L []).eraseIdx i)
        have hfp2 : freePools ⟨s.pools.set (masklenOf (⟨xq, cidrMask L⟩ : Pool))
            ((s.pools.getD L []).eraseIdx i), s.allocated⟩
            = A ++ ((s.pools.getD L []).take i ++ (s.pools.getD L []).drop (i + 1)) ++ B := by
          unfold freePools
          rw [hml, hset2, herase]
        have hpermS : List.Perm (freePools s)
            (pi :: freePools ⟨s.pools.set (masklenOf (⟨xq, cidrMask L⟩ : Pool))
              ((s.pools.getD L []).eraseIdx i), s.allocated⟩) := by
          rw [hfp2]
          unfold freePools
          rw [hAB]
          conv_lhs => rw [hslotdec]
          have h1 : A ++ ((s.pools.getD L []).take i ++ pi :: (s.pools.getD L []).drop (i + 1)) ++ B
              = (A ++ (s.pools.getD L []).take i) ++ pi :: ((s.pools.getD L []).drop (i + 1) ++ B) := by
            simp
          rw [h1]
          refine (List.perm_middle).trans ?_
          apply List.Perm.of_eq
          simp
        have hpw2 : List.Pairwise (fun a b => poolOverlap a b = false)
            (pi :: freePools ⟨s.pools.set (masklenOf (⟨xq, cidrMask L⟩ : Pool))
              ((s.pools.getD L []).eraseIdx i), s.allocated⟩) :=
          hpw.perm hpermS (fun hab => overlap_symmrel hab)
        rw [List.pairwise_cons] at hpw2
        obtain ⟨hpirest, hpwrest⟩ := hpw2
        have hmemsub : ∀ x ∈ freePools ⟨s.pools.set (masklenOf (⟨xq, cidrMask L⟩ : Pool))
            ((s.pools.getD L []).eraseIdx i), s.allocated⟩, x ∈ freePools s := by
          intro x hx
          rw [hpermS.mem_iff]
          exact List.mem_cons_of_mem pi hx
        have hinv2 : SlotInv ⟨s.pools.set (masklenOf (⟨xq, cidrMask L⟩ : Pool))
            ((s.pools.getD L []).eraseIdx i), s.allocated⟩ := by
          constructor
          · simp [hinv.1]
          · intro j hj p' hp'
            rw [List.length_set] at hj
            rw [hml] at hp'
            rw [getD_set _ _ _ _ _ (by rw [hinv.1]; omega)] at hp'
            by_cases hLj : L = j
            · rw [if_pos hLj] at hp'
              have := hwfslot p' (List.mem_of_mem_eraseIdx hp')
              rwa [hLj] at this
            · rw [if_neg hLj] at hp'
              exact hinv.2 j hj p' hp'
        -- the parent covers exactly the two buddies
        have hparent_split : ∀ y : Pool, wfPool y →
            poolOverlap ⟨goAnd xq (cidrMask (L - 1)), cidrMask (L - 1)⟩ y = true →
            poolOverlap ⟨xq, cidrMask L⟩ y = true ∨ poolOverlap pi y = true := by
          intro y hy hov
          obtain ⟨Ky, hKy, hymask, hylen, hywf, hynorm⟩ := hy
          have hyeta : y = ⟨y.ip, cidrMask Ky⟩ := by
            cases y
            simpa using hymask
          rw [hyeta] at hov ⊢
          have := overlap_parent_split xq L y.ip Ky hx4 hylen hxw
            hywf (by omega) (by omega) hn hynorm hov
          rcases this with h | h
          · left; exact h
          · right
            rw [hpieta]
            have hflip : flipBit (L - 1) xq = pi.ip := by
              rw [hxq_eq]
              exact flipBit_flipBit pi.ip (L - 1) (by rw [hwfpi.1]; omega)
            rw [← hflip]
            exact h
        have hpar_disj : ∀ x ∈ freePools ⟨s.pools.set (masklenOf (⟨xq, cidrMask L⟩ : Pool))
            ((s.pools.getD L []).eraseIdx i), s.allocated⟩,
            poolOverlap ⟨goAnd xq (cidrMask (L - 1)), cidrMask (L - 1)⟩ x = false := by
          intro x hx
          by_contra hcon
          have htrue : poolOverlap ⟨goAnd xq (cidrMask (L - 1)), cidrMask (L - 1)⟩ x = true := by
            cases hval : poolOverlap ⟨goAnd xq (cidrMask (L - 1)), cidrMask (L - 1)⟩ x
            · exact absurd hval hcon
            · rfl
          obtain ⟨Kx, hKx, hwx⟩ := freePools_wf s hinv x (hmemsub x hx)
          have hnormx : goAnd x.ip (cidrMask Kx) = x.ip := by
            rw [← hwx.2.2.1]
            exact hwx.2.2.2
          rcases hparent_split x ⟨Kx, by omega, hwx.2.2.1, hwx.1, hwx.2.1, hnormx⟩
            htrue with h | h
          · rw [hdisj x (hmemsub x hx)] at h
            exact absurd h (by simp)
          · rw [hpirest x hx] at h
            exact absurd h (by simp)
        have := ih ⟨s.pools.set (masklenOf (⟨xq, cidrMask L⟩ : Pool))
            ((s.pools.getD L []).eraseIdx i), s.allocated⟩
          (goAnd xq (cidrMask (L - 1))) (L - 1) hinv2 hpwrest
          (maskAt_length xq hx4 (L - 1)) (goAnd_bytesWf xq _ hxw) (by omega)
          (maskAt_idem xq hx4 hxw (L - 1)) hpar_disj (by omega) s' hs'
        obtain ⟨hinv', hall', hpw', htrans'⟩ := this
        refine ⟨hinv', hall', hpw', ?_⟩
        intro y hy hyfree hyq x hx
        refine htrans' y hy (fun x' hx' => hyfree x' (hmemsub x' hx')) ?_ x hx
        by_contra hcon
        have htrue : poolOverlap ⟨goAnd xq (cidrMask (L - 1)), cidrMask (L - 1)⟩ y = true := by
          cases hval : poolOverlap ⟨goAnd xq (cidrMask (L - 1)), cidrMask (L - 1)⟩ y
          · exact absurd hval hcon
          · rfl
        rcases hparent_split y hy htrue with h | h
        · rw [hyq] at h
          exact absurd h (by simp)
        · have hpimem : pi ∈ freePools s := by
            rw [hpermS.mem_iff]
            simp
          rw [hyfree pi hpimem] at h
          exact absurd h (by simp)

/-! ### Allocated-set helpers -/

theorem cidrMask_inj (L1 L2 : Nat) (h1 : L1 < 33) (h2 : L2 < 33)
    (h : cidrMask L1 = cidrMask L2) : L1 = L2 := by
  have e1 := maskSize_cidrMask L1 h1
  have e2 := maskSize_cidrMask L2 h2
  rw [h, e2] at e1
  exact (Option.some.injEq _ _).mp e1.symm

theorem pairwise_ne_overlap : ∀ (l : List Pool),
    List.Pairwise (fun a b => poolOverlap a b = false) l →
    ∀ a ∈ l, ∀ b ∈ l, a ≠ b → poolOverlap a b = false := by
  intro l
  induction l with
  | nil => intro _ a ha; simp at ha
  | cons hd tl ih =>
    intro h a ha b hb hne
    rw [List.pairwise_cons] at h
    rcases List.mem_cons.mp ha with rfl | ha'
    · rcases List.mem_cons.mp hb with rfl | hb'
      · exact absurd rfl hne
      · exact h.1 b hb'
    · rcases List.mem_cons.mp hb with rfl | hb'
      · rw [overlap_comm]
        exact h.1 a ha'
      · exact ih h.2 a ha' b hb' hne

theorem allocPools_of_key (ps : List (List Pool)) (al : List Key) (ip : Bytes) (L : Nat)
    (h : Key.pool ip L ∈ al) :
    (⟨ip, cidrMask L⟩ : Pool) ∈ allocPools ⟨ps, al⟩ := by
  unfold allocPools
  rw [List.mem_filterMap]
  exact ⟨Key.pool ip L, h, rfl⟩

theorem allocPools_inv (s : AllocState) (y : Pool) (h : y ∈ allocPools s) :
    ∃ ip L, y = ⟨ip, cidrMask L⟩ ∧ Key.pool ip L ∈ s.allocated := by
  unfold allocPools at h
  rw [List.mem_filterMap] at h
  obtain ⟨k, hk, hky⟩ := h
  cases k with
  | pool ip L =>
    simp only [Option.some.injEq] at hky
    exact ⟨ip, L, hky.symm, hk⟩
  | rawPool ip m => simp at hky
  | addr ip => simp at hky

/-- Distinct pool keys of prefix length at most 32 denote distinct pools. -/
theorem poolKey_pools_inj (ip1 : Bytes) (L1 : Nat) (ip2 : Bytes) (L2 : Nat)
    (h1 : L1 ≤ 32) (h2 : L2 ≤ 32)
    (h : (⟨ip1, cidrMask L1⟩ : Pool) = ⟨ip2, cidrMask L2⟩) :
    Key.pool ip1 L1 = Key.pool ip2 L2 := by
  have hip : ip1 = ip2 := congrArg Pool.ip h
  have hm : cidrMask L1 = cidrMask L2 := congrArg Pool.mask h
  rw [hip, cidrMask_inj L1 L2 (by omega) (by omega) hm]

/-! ### Normalization congruence for overlap and addGo -/

theorem goContains_ip_congr (a a' m y : Bytes) (ha : a.length = 4) (ha' : a'.length = 4)
    (hm : m.length = 4) (hand : goAnd a m = goAnd a' m) :
    goContains ⟨a, m⟩ y = goContains ⟨a', m⟩ y := by
  have hpt : ∀ i, i < 4 → a.getD i 0 &&& m.getD i 0 = a'.getD i 0 &&& m.getD i 0 := by
    intro i hi
    have e1 : (goAnd a m).getD i 0 = a.getD i 255 &&& m.getD i 255 :=
      goAnd_getD a m i (by omega)
    have e2 : (goAnd a' m).getD i 0 = a'.getD i 255 &&& m.getD i 255 :=
      goAnd_getD a' m i (by omega)
    rw [getD_lt a i 255 (by omega), getD_lt m i 255 (by omega)] at e1
    rw [getD_lt a' i 255 (by omega), getD_lt m i 255 (by omega)] at e2
    rw [← e1, ← e2, hand]
  unfold goContains
  rw [ha, ha']
  have hr : List.range 4 = [0, 1, 2, 3] := rfl
  rw [hr]
  simp only [List.all_cons, List.all_nil]
  rw [hpt 0 (by omega), hpt 1 (by omega), hpt 2 (by omega), hpt 3 (by omega)]

theorem overlap_norm (xp : Bytes) (L : Nat) (z : Pool) (h4 : xp.length = 4)
    (hw : bytesWf xp) :
    poolOverlap ⟨goAnd xp (cidrMask L), cidrMask L⟩ z = poolOverlap ⟨xp, cidrMask L⟩ z := by
  show (goContains ⟨goAnd xp (cidrMask L), cidrMask L⟩ (goAnd z.ip z.mask)
      || goContains z (goAnd (goAnd xp (cidrMask L)) (cidrMask L)))
    = (goContains ⟨xp, cidrMask L⟩ (goAnd z.ip z.mask)
      || goContains z (goAnd xp (cidrMask L)))
  rw [goContains_ip_congr (goAnd xp (cidrMask L)) xp (cidrMask L) (goAnd z.ip z.mask)
    (maskAt_length xp h4 L) h4 (cidrMask_length L) (maskAt_idem xp h4 hw L)]
  rw [maskAt_idem xp h4 hw L]

theorem addGo_norm_arg (fuel : Nat) (s : AllocState) (p : Pool) (L : Nat)
    (h4 : p.ip.length = 4) (hm : p.mask = cidrMask L) (hw : bytesWf p.ip) :
    addGo (fuel + 1) s p = addGo (fuel + 1) s ⟨goAnd p.ip (cidrMask L), cidrMask L⟩ := by
  have h1 : normalizePool p = some ⟨goAnd p.ip (cidrMask L), cidrMask L⟩ := by
    rw [normalizePool_mk p h4, hm]
  have h2 : normalizePool ⟨goAnd p.ip (cidrMask L), cidrMask L⟩
      = some ⟨goAnd p.ip (cidrMask L), cidrMask L⟩ := by
    rw [normalizePool_mk _ (maskAt_length p.ip h4 L)]
    simp [maskAt_idem p.ip h4 hw L]
  simp only [addGo, h1, h2]

/-! ### popFrom inversion -/

theorem popFrom_inv : ∀ (t : Nat) (ps : List (List Pool)) (j : Nat) (p : Pool)
    (ps1 : List (List Pool)), popFrom ps t = PopRes.found j p ps1 →
    j ≤ t ∧ ∃ rest, ps[j]? = some (p :: rest) ∧ ps1 = ps.set j rest := by
  intro t
  induction t with
  | zero =>
    intro ps j p ps1 h
    unfold popFrom at h
    cases h0 : ps[0]? with
    | none => rw [h0] at h; simp at h
    | some slot =>
      rw [h0] at h
      cases slot with
      | nil => simp at h
      | cons q rest =>
        simp only [PopRes.found.injEq] at h
        obtain ⟨rfl, rfl, rfl⟩ := h
        exact ⟨Nat.le_refl 0, rest, h0, rfl⟩
  | succ t ih =>
    intro ps j p ps1 h
    unfold popFrom at h
    cases h0 : ps[t + 1]? with
    | none => rw [h0] at h; simp at h
    | some slot =>
      rw [h0] at h
      cases slot with
      | nil =>
        obtain ⟨hj, rest, hmem, hset⟩ := ih ps j p ps1 h
        exact ⟨by omega, rest, hmem, hset⟩
      | cons q rest =>
        simp only [PopRes.found.injEq] at h
        obtain ⟨rfl, rfl, rfl⟩ := h
        exact ⟨Nat.le_refl _, rest, h0, rfl⟩

/-! ### Flatten permutation helpers for append and pop -/

theorem flatten_set_append_perm (ps : List (List Pool)) (K : Nat) (r : Pool)
    (hK : K < ps.length) :
    List.Perm (ps.set K (ps.getD K [] ++ [r])).flatten (r :: ps.flatten) := by
  obtain ⟨A, B, hAB, hset⟩ := flatten_set_decomp ps K (ps.getD K [])
    (getElem?_eq_getD ps K [] hK)
  rw [hset, hAB]
  have h1 : A ++ (ps.getD K [] ++ [r]) ++ B = (A ++ ps.getD K []) ++ r :: B := by
    simp
  rw [h1]
  exact (@List.perm_middle Pool r (A ++ ps.getD K []) B).trans (List.Perm.of_eq (by simp))

theorem flatten_set_pop_perm (ps : List (List Pool)) (K : Nat) (p : Pool) (rest : List Pool)
    (h : ps[K]? = some (p :: rest)) :
    List.Perm ps.flatten (p :: (ps.set K rest).flatten) := by
  obtain ⟨A, B, hAB, hset⟩ := flatten_set_decomp ps K (p :: rest) h
  rw [hAB, hset]
  have h1 : A ++ (p :: rest) ++ B = A ++ p :: (rest ++ B) := by simp
  rw [h1]
  exact (@List.perm_middle Pool p A (rest ++ B)).trans (List.Perm.of_eq (by simp))

theorem poolWfAt_wfPool (z : Pool) (K : Nat) (hK : K ≤ 32) (h : poolWfAt z K) : wfPool z := by
  refine ⟨K, hK, h.2.2.1, h.1, h.2.1, ?_⟩
  rw [← h.2.2.1]
  exact h.2.2.2

/-- A sub-pool (same masked address at a coarser level) of a pool that does
not overlap `y` does not overlap `y` either. -/
theorem overlap_sub_transfer (x : Bytes) (i : Nat) (w : Bytes) (T : Nat) (y : Pool)
    (hx : x.length = 4) (hw4 : w.length = 4) (hwx : bytesWf x) (hww : bytesWf w)
    (hiT : i ≤ T) (hn : goAnd x (cidrMask i) = x) (hwn : goAnd w (cidrMask T) = w)
    (hwsub : goAnd w (cidrMask i) = x) (hy : wfPool y)
    (hxy : poolOverlap ⟨x, cidrMask i⟩ y = false) :
    poolOverlap ⟨w, cidrMask T⟩ y = false := by
  by_contra hcon
  have htrue : poolOverlap ⟨w, cidrMask T⟩ y = true := by
    cases hval : poolOverlap ⟨w, cidrMask T⟩ y
    · exact absurd hval hcon
    · rfl
  obtain ⟨Ky, hKy, hymask, hylen, hywf, hynorm⟩ := hy
  have hyeta : y = ⟨y.ip, cidrMask Ky⟩ := by
    cases y
    simpa using hymask
  rw [hyeta] at htrue
  have hbig := overlap_trans_sub x i w T y.ip Ky hx hw4 hylen hwx hww hywf hiT
    hn hwn hynorm hwsub htrue
  rw [hyeta] at hxy
  rw [hbig] at hxy
  exact absurd hxy (by simp)

/-! ### Preservation of the invariant by the split loop of RequestPool -/

theorem splitLoop_preserves : ∀ (c i : Nat) (ps : List (List Pool)) (x : Bytes),
    x.length = 4 → bytesWf x → goAnd x (cidrMask i) = x → i + c ≤ 31 →
    ps.length = 32 → (∀ k, k < 32 → ∀ q ∈ ps.getD k [], poolWfAt q k) →
    List.Pairwise (fun a b => poolOverlap a b = false) ps.flatten →
    (∀ z ∈ ps.flatten, poolOverlap ⟨x, cidrMask i⟩ z = false) →
    ∀ pool' ps', splitLoop ⟨x, cidrMask i⟩ ps i c = some (pool', ps') →
      pool' = ⟨x, cidrMask (i + c)⟩ ∧ ps'.length = 32 ∧
      (∀ k, k < 32 → ∀ q ∈ ps'.getD k [], poolWfAt q k) ∧
      List.Pairwise (fun a b => poolOverlap a b = false) ps'.flatten ∧
      (∀ z ∈ ps'.flatten, poolOverlap ⟨x, cidrMask (i + c)⟩ z = false) ∧
      (∀ y : Pool, wfPool y →
        (∀ z ∈ ps.flatten, poolOverlap z y = false) →
        poolOverlap ⟨x, cidrMask i⟩ y = false →
        (∀ z ∈ ps'.flatten, poolOverlap z y = false) ∧
        poolOverlap ⟨x, cidrMask (i + c)⟩ y = false) := by
  intro c
  induction c with
  | zero =>
    intro i ps x hx hwx hn hic hlen hwfAt hpw hdisj pool' ps' h
    simp only [splitLoop, Option.some.injEq, Prod.mk.injEq] at h
    obtain ⟨rfl, rfl⟩ := h
    refine ⟨by rw [Nat.add_zero], hlen, hwfAt, hpw, by rw [Nat.add_zero]; exact hdisj, ?_⟩
    intro y _ hzy hxy
    rw [Nat.add_zero]
    exact ⟨hzy, hxy⟩
  | succ c ih =>
    intro i ps x hx hwx hn hic hlen hwfAt hpw hdisj pool' ps' h
    have hsp : splitPool ⟨x, cidrMask i⟩
        = some (⟨x, cidrMask (i + 1)⟩, ⟨flipBit i x, cidrMask (i + 1)⟩) :=
      splitPool_eq x i hx (by omega) hn
    have hslot : ps[i + 1]? = some (ps.getD (i + 1) []) :=
      getElem?_eq_getD ps (i + 1) [] (by omega)
    simp only [splitLoop, hsp, hslot] at h
    -- facts about the right half r
    have hr4 : (flipBit i x).length = 4 := by rw [flipBit_length, hx]
    have hrw : bytesWf (flipBit i x) := flipBit_bytesWf x hx hwx i (by omega)
    have hrn : goAnd (flipBit i x) (cidrMask (i + 1)) = flipBit i x :=
      flip_norm_succ x hx hwx (by omega) hn
    have hrsub : goAnd (flipBit i x) (cidrMask i) = x := flip_restores x hx hwx (by omega) hn
    have hnl : goAnd x (cidrMask (i + 1)) = x := normalized_mono x hx hwx (by omega) hn
    -- well-formedness of every stored pool
    have hzwf : ∀ z ∈ ps.flatten, ∃ K, K ≤ 31 ∧ poolWfAt z K :=
      freePools_wf ⟨ps, []⟩ ⟨hlen, fun k hk => hwfAt k (by rw [hlen] at hk; omega)⟩
    -- the updated structure
    have hperm2 : List.Perm
        (ps.set (i + 1) (ps.getD (i + 1) [] ++ [⟨flipBit i x, cidrMask (i + 1)⟩])).flatten
        (⟨flipBit i x, cidrMask (i + 1)⟩ :: ps.flatten) :=
      flatten_set_append_perm ps (i + 1) _ (by omega)
    have hlen2 : (ps.set (i + 1)
        (ps.getD (i + 1) [] ++ [⟨flipBit i x, cidrMask (i + 1)⟩])).length = 32 := by
      rw [List.length_set, hlen]
    have hwfAt2 : ∀ k, k < 32 → ∀ q ∈ (ps.set (i + 1)
        (ps.getD (i + 1) [] ++ [⟨flipBit i x, cidrMask (i + 1)⟩])).getD k [], poolWfAt q k := by
      intro k hk q hq
      rw [getD_set _ _ _ _ _ (by omega)] at hq
      by_cases hik : i + 1 = k
      · rw [if_pos hik] at hq
        rw [List.mem_append] at hq
        rcases hq with hq | hq
        · subst hik
          exact hwfAt _ hk q hq
        · simp only [List.mem_singleton] at hq
          subst hq
          subst hik
          exact ⟨hr4, hrw, rfl, hrn⟩
      · rw [if_neg hik] at hq
        exact hwfAt k hk q hq
    have hpw2 : List.Pairwise (fun a b => poolOverlap a b = false)
        (ps.set (i + 1) (ps.getD (i + 1) [] ++ [⟨flipBit i x, cidrMask (i + 1)⟩])).flatten := by
      refine List.Pairwise.perm ?_ hperm2.symm (fun hab => overlap_symmrel hab)
      rw [List.pairwise_cons]
      refine ⟨?_, hpw⟩
      intro z hz
      obtain ⟨K, hK, hzK⟩ := hzwf z hz
      exact overlap_sub_transfer x i (flipBit i x) (i + 1) z hx hr4 hwx hrw (by omega)
        hn hrn hrsub (poolWfAt_wfPool z K (by omega) hzK) (hdisj z hz)
    have hdisj2 : ∀ z ∈ (ps.set (i + 1)
        (ps.getD (i + 1) [] ++ [⟨flipBit i x, cidrMask (i + 1)⟩])).flatten,
        poolOverlap ⟨x, cidrMask (i + 1)⟩ z = false := by
      intro z hz
      rcases List.mem_cons.mp (hperm2.mem_iff.mp hz) with rfl | hz'
      · exact split_halves_disjoint x i hx hwx (by omega) hn
      · obtain ⟨K, hK, hzK⟩ := hzwf z hz'
        exact overlap_sub_transfer x i x (i + 1) z hx hx hwx hwx (by omega)
          hn hnl hn (poolWfAt_wfPool z K (by omega) hzK) (hdisj z hz')
    have hmem2 : ∀ z ∈ (ps.set (i + 1)
        (ps.getD (i + 1) [] ++ [⟨flipBit i x, cidrMask (i + 1)⟩])).flatten,
        z = ⟨flipBit i x, cidrMask (i + 1)⟩ ∨ z ∈ ps.flatten := by
      intro z hz
      exact List.mem_cons.mp (hperm2.mem_iff.mp hz)
    have hrec := ih (i + 1) _ x hx hwx hnl (by omega) hlen2 hwfAt2 hpw2 hdisj2 pool' ps' h
    obtain ⟨hpool', hlen', hwfAt', hpw', hdisj', htrans'⟩ := hrec
    have hidx : i + 1 + c = i + (c + 1) := by omega
    rw [hidx] at hpool' hdisj' htrans'
    refine ⟨hpool', hlen', hwfAt', hpw', hdisj', ?_⟩
    intro y hy hzy hxy
    refine htrans' y hy ?_ ?_
    · intro z hz
      rcases hmem2 z hz with rfl | hz'
      · exact overlap_sub_transfer x i (flipBit i x) (i + 1) y hx hr4 hwx hrw (by omega)
          hn hrn hrsub hy hxy
      · exact hzy z hz'
    · exact overlap_sub_transfer x i x (i + 1) y hx hx hwx hwx (by omega)
        hn hnl hn hy hxy

/-! ### Allocated-set update lemmas -/

theorem allocPools_filterMap (ps : List (List Pool)) (al : List Key) :
    allocPools ⟨ps, al⟩ = al.filterMap fun k =>
      match k with
      | Key.pool ip L => some ⟨ip, cidrMask L⟩
      | _ => none := rfl

theorem mem_keyInsert (al : List Key) (k k' : Key) (h : k' ∈ keyInsert al k) :
    k' = k ∨ k' ∈ al := by
  unfold keyInsert at h
  by_cases hc : al.contains k = true
  · rw [if_pos hc] at h
    exact Or.inr h
  · rw [if_neg hc] at h
    exact List.mem_cons.mp h

theorem mem_keyRemove (al : List Key) (k k' : Key) (h : k' ∈ keyRemove al k) : k' ∈ al :=
  (List.mem_filter.mp h).1

theorem allocPools_insert_addr (ps : List (List Pool)) (al : List Key) (ip : Bytes) :
    allocPools ⟨ps, keyInsert al (addrKey ip)⟩ = allocPools ⟨ps, al⟩ := by
  unfold keyInsert
  by_cases hc : al.contains (addrKey ip) = true
  · rw [if_pos hc]
  · rw [if_neg hc]
    rw [allocPools_filterMap, allocPools_filterMap, List.filterMap_cons]
    simp [addrKey]

theorem allocPools_remove_addr (ps : List (List Pool)) (al : List Key) (ip : Bytes) :
    allocPools ⟨ps, keyRemove al (addrKey ip)⟩ = allocPools ⟨ps, al⟩ := by
  rw [allocPools_filterMap, allocPools_filterMap]
  unfold keyRemove
  induction al with
  | nil => rfl
  | cons k tl ih =>
    rw [List.filter_cons]
    cases k with
    | pool ip' L =>
      have hne : (Key.pool ip' L != addrKey ip) = true := by simp [addrKey]
      rw [if_pos hne, List.filterMap_cons, List.filterMap_cons]
      simp only []
      rw [ih]
    | rawPool a b =>
      have hne : (Key.rawPool a b != addrKey ip) = true := by simp [addrKey]
      rw [if_pos hne, List.filterMap_cons, List.filterMap_cons]
      simp only []
      rw [ih]
    | addr a =>
      by_cases hb : a = ip
      · subst hb
        have hne : (Key.addr a != addrKey a) = false := by simp [addrKey]
        rw [if_neg (by rw [hne]; simp), List.filterMap_cons]
        simp only []
        rw [ih]
      · have hne : (Key.addr a != addrKey ip) = true := by simp [addrKey, hb]
        rw [if_pos hne, List.filterMap_cons, List.filterMap_cons]
        simp only []
        rw [ih]

theorem allocPools_insert_pool (ps : List (List Pool)) (al : List Key) (x : Bytes) (L : Nat) :
    allocPools ⟨ps, keyInsert al (Key.pool x L)⟩ = allocPools ⟨ps, al⟩ ∨
    allocPools ⟨ps, keyInsert al (Key.pool x L)⟩
      = ⟨x, cidrMask L⟩ :: allocPools ⟨ps, al⟩ := by
  unfold keyInsert
  by_cases hc : al.contains (Key.pool x L) = true
  · rw [if_pos hc]
    exact Or.inl rfl
  · rw [if_neg hc]
    right
    rw [allocPools_filterMap, allocPools_filterMap, List.filterMap_cons]

theorem poolKey_mk (x : Bytes) (t : Nat) (ht : t < 33) :
    poolKey ⟨x, cidrMask t⟩ = Key.pool x t := by
  simp [poolKey, maskSize_cidrMask t ht]

/-! ### Preservation of the invariant: address operations -/

theorem stateWf_insert_addr (s : AllocState) (ip : Bytes) (hwf : StateWf s) :
    StateWf ⟨s.pools, keyInsert s.allocated (addrKey ip)⟩ := by
  obtain ⟨h1, h2, h3, h4, h5, h6⟩ := hwf
  refine ⟨h1, h2, ?_, ?_, ?_, ?_⟩
  · intro x hx y hy
    rw [allocPools_insert_addr] at hy
    exact h3 x hx y hy
  · have he : allocPools ⟨s.pools, keyInsert s.allocated (addrKey ip)⟩
        = allocPools ⟨s.pools, s.allocated⟩ := allocPools_insert_addr _ _ _
    exact he ▸ h4
  · intro ip' L hmem
    rcases mem_keyInsert _ _ _ hmem with heq | hmem'
    · exact absurd heq (by simp [addrKey])
    · exact h5 ip' L hmem'
  · intro ip' m hmem
    rcases mem_keyInsert _ _ _ hmem with heq | hmem'
    · exact absurd heq (by simp [addrKey])
    · exact h6 ip' m hmem'

theorem stateWf_requestAddress (s : AllocState) (pool : Pool) (iparg : Option Bytes)
    (hwf : StateWf s) (s' : AllocState)
    (hs' : (requestAddress s pool iparg).state? = some s') : StateWf s' := by
  cases iparg with
  | some ip =>
    simp only [requestAddress] at hs'
    split at hs'
    · split at hs'
      · simp only [Out.state?, Option.some.injEq] at hs'
        subst hs'
        exact stateWf_insert_addr s ip hwf
      · simp only [Out.state?, Option.some.injEq] at hs'
        subst hs'
        exact hwf
    · simp only [Out.state?, Option.some.injEq] at hs'
      subst hs'
      exact hwf
  | none =>
    simp only [requestAddress] at hs'
    split at hs'
    · split at hs'
      · obtain ⟨d, hd⟩ := goAdd_crash pool.ip 1 pool.ip
        rw [hd] at hs'
        simp [Out.state?] at hs'
      · simp only [Out.state?, Option.some.injEq] at hs'
        subst hs'
        exact hwf
    · simp only [Out.state?, Option.some.injEq] at hs'
      subst hs'
      exact hwf

theorem stateWf_releaseAddress (s : AllocState) (ip : Bytes) (hwf : StateWf s)
    (s' : AllocState) (hs' : (releaseAddress s ip).state? = some s') : StateWf s' := by
  unfold releaseAddress at hs'
  split at hs'
  · split at hs'
    · simp only [Out.state?, Option.some.injEq] at hs'
      subst hs'
      obtain ⟨h1, h2, h3, h4, h5, h6⟩ := hwf
      refine ⟨h1, h2, ?_, ?_, ?_, ?_⟩
      · intro x hx y hy
        rw [allocPools_remove_addr] at hy
        exact h3 x hx y hy
      · have : allocPools ⟨s.pools, keyRemove s.allocated (addrKey ip)⟩
            = allocPools ⟨s.pools, s.allocated⟩ := allocPools_remove_addr _ _ _
        rw [this]
        exact h4
      · intro ip' L hmem
        exact h5 ip' L (mem_keyRemove _ _ _ hmem)
      · intro ip' m hmem
        exact h6 ip' m (mem_keyRemove _ _ _ hmem)
    · simp only [Out.state?, Option.some.injEq] at hs'
      subst hs'
      exact hwf
  · simp only [Out.state?, Option.some.injEq] at hs'
    subst hs'
    exact hwf

/-! ### Preservation of the invariant: ReleasePool -/

theorem stateWf_releasePool_post (s s1 : AllocState) (xp : Bytes) (L : Nat)
    (hwf : StateWf s) (hkmem : Key.pool xp L ∈ s.allocated)
    (hstate : (addGo 33 s ⟨xp, cidrMask L⟩).state? = some s1) :
    StateWf ⟨s1.pools, keyRemove s1.allocated (Key.pool xp L)⟩ := by
  obtain ⟨h1, h2, h3, h4, h5, h6⟩ := hwf
  obtain ⟨hip4, hipw, hipn, hL31⟩ := h5 xp L hkmem
  have hpalloc : (⟨xp, cidrMask L⟩ : Pool) ∈ allocPools s :=
    allocPools_of_key s.pools s.allocated xp L hkmem
  have hfree : ∀ x ∈ freePools s, poolOverlap ⟨xp, cidrMask L⟩ x = false := by
    intro x hx
    rw [overlap_comm]
    exact h3 x hx _ hpalloc
  obtain ⟨hinv1, hall1, hpw1, htrans1⟩ := addGo_preserves 33 s xp L h1 h2 hip4 hipw hL31
    hipn hfree (by omega) s1 hstate
  have hywf : ∀ ipy Ly, Key.pool ipy Ly ∈ s.allocated → wfPool (⟨ipy, cidrMask Ly⟩ : Pool) := by
    intro ipy Ly hky
    obtain ⟨hy4, hyw, hyn, hyL⟩ := h5 ipy Ly hky
    exact ⟨Ly, by omega, rfl, hy4, hyw, hyn⟩
  refine ⟨hinv1, hpw1, ?_, ?_, ?_, ?_⟩
  · intro x hx y hy
    obtain ⟨ipy, Ly, rfl, hky⟩ := allocPools_inv _ y hy
    have hkr := hky
    have hkmem1 : Key.pool ipy Ly ∈ s1.allocated := mem_keyRemove _ _ _ hkr
    have hkne : Key.pool ipy Ly ≠ Key.pool xp L := by
      have := (List.mem_filter.mp hkr).2
      intro hc
      rw [hc] at this
      simp at this
    rw [hall1] at hkmem1
    obtain ⟨hy4, hyw, hyn, hyL⟩ := h5 ipy Ly hkmem1
    have hyalloc : (⟨ipy, cidrMask Ly⟩ : Pool) ∈ allocPools s :=
      allocPools_of_key s.pools s.allocated ipy Ly hkmem1
    have hpne : (⟨xp, cidrMask L⟩ : Pool) ≠ ⟨ipy, cidrMask Ly⟩ := by
      intro hc
      exact hkne (poolKey_pools_inj xp L ipy Ly (by omega) (by omega) hc).symm
    exact htrans1 _ (hywf ipy Ly hkmem1)
      (fun x' hx' => h3 x' hx' _ hyalloc)
      (pairwise_ne_overlap _ h4 _ hpalloc _ hyalloc hpne) x hx
  · have hsubl : List.Sublist (allocPools ⟨s1.pools, keyRemove s1.allocated (Key.pool xp L)⟩)
        (allocPools s1) := by
      rw [allocPools_filterMap, allocPools_filterMap]
      exact List.Sublist.filterMap _ (List.filter_sublist s1.allocated)
    have hall : allocPools s1 = allocPools s := by
      rw [allocPools_filterMap s1.pools s1.allocated, hall1]
      rfl
    refine List.Pairwise.sublist ?_ h4
    rw [← hall]
    exact hsubl
  · intro ip' L' hmem
    have := mem_keyRemove _ _ _ hmem
    rw [hall1] at this
    exact h5 ip' L' this
  · intro ip' m hmem
    have := mem_keyRemove _ _ _ hmem
    rw [hall1] at this
    exact h6 ip' m this

theorem stateWf_releasePool (s : AllocState) (p : Pool) (hwf : StateWf s)
    (s' : AllocState) (hs' : (releasePool s p).state? = some s') : StateWf s' := by
  unfold releasePool at hs'
  split at hs'
  · rename_i hkm
    have hkmem : poolKey p ∈ s.allocated := by
      simp only [keyMem] at hkm
      simpa using hkm
    cases hms : maskSize p.mask with
    | none =>
      have hraw : poolKey p = Key.rawPool p.ip p.mask := by
        simp [poolKey, hms]
      rw [hraw] at hkmem
      exact absurd hkmem (hwf.2.2.2.2.2 p.ip p.mask)
    | some L =>
      have hkey : poolKey p = Key.pool p.ip L := by
        simp [poolKey, hms]
      rw [hkey] at hkmem hs'
      obtain ⟨hmask, hL33⟩ := maskSize_some p.mask L hms
      have hpeta : p = ⟨p.ip, cidrMask L⟩ := by
        cases p
        simpa using hmask
      split at hs'
      · simp [Out.state?] at hs'
      · simp [Out.state?] at hs'
      · rename_i val s1 heq
        simp only [Out.state?, Option.some.injEq] at hs'
        subst hs'
        have hstate : (addGo 33 s ⟨p.ip, cidrMask L⟩).state? = some s1 := by
          rw [← hpeta]
          show (addPoolNoLock s p).state? = some s1
          rw [heq]
          rfl
        exact stateWf_releasePool_post s s1 p.ip L hwf hkmem hstate
      · rename_i e s1 heq
        simp only [Out.state?, Option.some.injEq] at hs'
        subst hs'
        have hstate : (addGo 33 s ⟨p.ip, cidrMask L⟩).state? = some s1 := by
          rw [← hpeta]
          show (addPoolNoLock s p).state? = some s1
          rw [heq]
          rfl
        exact stateWf_releasePool_post s s1 p.ip L hwf hkmem hstate
  · simp only [Out.state?, Option.some.injEq] at hs'
    subst hs'
    exact hwf

theorem allocPools_congr (s t : AllocState) (h : s.allocated = t.allocated) :
    allocPools s = allocPools t := by
  unfold allocPools
  rw [h]

/-! ### Preservation of the invariant: AddPool under the proviso -/

theorem stateWf_addPool (s : AllocState) (p : Pool) (L : Nat)
    (hwf : StateWf s) (harg : argWf p) (hip4 : p.ip.length = 4)
    (hms : maskSize p.mask = some L) (hL : L ≤ 31)
    (hov : ∀ x ∈ freePools s ++ allocPools s, poolOverlap p x = false)
    (s' : AllocState) (hs' : (addPool s p).state? = some s') : StateWf s' := by
  obtain ⟨hmask, hL33⟩ := maskSize_some p.mask L hms
  have hpeta : p = ⟨p.ip, cidrMask L⟩ := by
    cases p
    simpa using hmask
  have hipw : bytesWf p.ip := harg.1
  unfold addPool at hs'
  rw [if_neg (by rw [hmask]; simp [cidrMask_length])] at hs'
  have hbridge : addPoolNoLock s p = addGo 33 s ⟨goAnd p.ip (cidrMask L), cidrMask L⟩ :=
    addGo_norm_arg 32 s p L hip4 hmask hipw
  rw [hbridge] at hs'
  have hovn : ∀ x ∈ freePools s,
      poolOverlap ⟨goAnd p.ip (cidrMask L), cidrMask L⟩ x = false := by
    intro x hx
    rw [overlap_norm p.ip L x hip4 hipw, ← hpeta]
    exact hov x (List.mem_append.mpr (Or.inl hx))
  obtain ⟨hinv1, hall1, hpw1, htrans1⟩ := addGo_preserves 33 s (goAnd p.ip (cidrMask L)) L
    hwf.1 hwf.2.1 (maskAt_length p.ip hip4 L) (goAnd_bytesWf p.ip _ hipw) hL
    (maskAt_idem p.ip hip4 hipw L) hovn (by omega) s' hs'
  obtain ⟨h1, h2, h3, hal4, h5, h6⟩ := hwf
  refine ⟨hinv1, hpw1, ?_, ?_, ?_, ?_⟩
  · intro x hx y hy
    have hyS : y ∈ allocPools s := by
      rw [← allocPools_congr s' s hall1]
      exact hy
    obtain ⟨ipy, Ly, rfl, hky⟩ := allocPools_inv s _ hyS
    obtain ⟨hy4, hyw, hyn, hyL⟩ := h5 ipy Ly hky
    refine htrans1 _ ⟨Ly, by omega, rfl, hy4, hyw, hyn⟩
      (fun x' hx' => h3 x' hx' _ hyS) ?_ x hx
    rw [overlap_norm p.ip L _ hip4 hipw, ← hpeta]
    exact hov _ (List.mem_append.mpr (Or.inr hyS))
  · rw [allocPools_congr s' s hall1]
    exact hal4
  · intro ip' L' hmem
    rw [hall1] at hmem
    exact h5 ip' L' hmem
  · intro ip' m hmem
    rw [hall1] at hmem
    exact h6 ip' m hmem

/-! ### Preservation of the invariant: RequestPool -/

theorem stateWf_requestPool (s : AllocState) (n : Int) (parg : Option Pool)
    (hwf : StateWf s) (s' : AllocState)
    (hs' : (requestPool s n parg).state? = some s') : StateWf s' := by
  unfold requestPool at hs'
  split at hs'
  · simp only [Out.state?, Option.some.injEq] at hs'
    subst hs'
    exact hwf
  · split at hs'
    · simp only [Out.state?, Option.some.injEq] at hs'
      subst hs'
      exact hwf
    · rename_i hrange
      split at hs'
      · simp [Out.state?] at hs'
      · simp only [Out.state?, Option.some.injEq] at hs'
        subst hs'
        exact hwf
      · rename_i j p ps1 hpop
        split at hs'
        · simp [Out.state?] at hs'
        · rename_i pr pool ps2 hsplit
          simp only [Out.state?, Option.some.injEq] at hs'
          subst hs'
          obtain ⟨hj, rest, hmem, rfl⟩ := popFrom_inv n.toNat s.pools j p ps1 hpop
          obtain ⟨h1, h2, h3, hal4, h5, h6⟩ := hwf
          have hlen32 := h1.1
          have ht31 : n.toNat ≤ 31 := by omega
          have hgd : s.pools.getD j [] = p :: rest := by
            rw [List.getD_eq_getElem?_getD, hmem]
            rfl
          have hpmem : p ∈ s.pools.getD j [] := by
            rw [hgd]
            exact List.mem_cons_self p rest
          obtain ⟨hp4, hpw, hpmask, hpn⟩ := h1.2 j (by omega) p hpmem
          have hpn' : goAnd p.ip (cidrMask j) = p.ip := by
            rw [← hpmask]
            exact hpn
          have hpeta : p = ⟨p.ip, cidrMask j⟩ := by
            cases p
            simpa using hpmask
          have hpermP : List.Perm (freePools s) (p :: (s.pools.set j rest).flatten) :=
            flatten_set_pop_perm s.pools j p rest hmem
          have hpfree : p ∈ freePools s := hpermP.mem_iff.mpr (List.mem_cons_self _ _)
          have hcons := h2.perm hpermP (fun hab => overlap_symmrel hab)
          rw [List.pairwise_cons] at hcons
          obtain ⟨hpdisj, hpwrest⟩ := hcons
          have hwfAt1 : ∀ k, k < 32 → ∀ q ∈ (s.pools.set j rest).getD k [], poolWfAt q k := by
            intro k hk q hq
            rw [getD_set _ _ _ _ _ (by omega)] at hq
            by_cases hjk : j = k
            · rw [if_pos hjk] at hq
              subst hjk
              refine h1.2 j (by omega) q ?_
              rw [hgd]
              exact List.mem_cons_of_mem p hq
            · rw [if_neg hjk] at hq
              exact h1.2 k (by omega) q hq
          rw [hpeta] at hsplit
          obtain ⟨hpool, hlen2, hwfAt2, hpw2, hdisj2, htrans2⟩ :=
            splitLoop_preserves (n.toNat - j) j _ p.ip hp4 hpw hpn' (by omega)
              (by rw [List.length_set]; exact hlen32) hwfAt1 hpwrest
              (fun z hz => by rw [← hpeta]; exact hpdisj z hz) pool ps2 hsplit
          have hidx : j + (n.toNat - j) = n.toNat := by omega
          rw [hidx] at hpool hdisj2
          subst hpool
          have hfn : goAnd p.ip (cidrMask n.toNat) = p.ip :=
            normalized_mono p.ip hp4 hpw (by omega) hpn'
          have hkeyeq : poolKey ⟨p.ip, cidrMask n.toNat⟩ = Key.pool p.ip n.toNat :=
            poolKey_mk p.ip n.toNat (by omega)
          rw [hkeyeq]
          have hald : ∀ y ∈ allocPools ⟨ps2, s.allocated⟩, y ∈ allocPools s := by
            intro y hy
            rw [allocPools_congr ⟨ps2, s.allocated⟩ s rfl] at hy
            exact hy
          have htry : ∀ y ∈ allocPools s,
              (∀ z ∈ ps2.flatten, poolOverlap z y = false) ∧
              poolOverlap ⟨p.ip, cidrMask (j + (n.toNat - j))⟩ y = false := by
            intro y hy
            obtain ⟨ipy, Ly, rfl, hky⟩ := allocPools_inv s _ hy
            obtain ⟨hy4, hyw, hyn, hyL⟩ := h5 ipy Ly hky
            refine htrans2 _ ⟨Ly, by omega, rfl, hy4, hyw, hyn⟩ ?_ ?_
            · intro z hz
              refine h3 z ?_ _ hy
              rw [hpermP.mem_iff]
              exact List.mem_cons_of_mem p hz
            · rw [← hpeta]
              exact h3 p hpfree _ hy
          rw [hidx] at htry
          refine ⟨⟨hlen2, ?_⟩, hpw2, ?_, ?_, ?_, ?_⟩
          · intro i hi q hq
            exact hwfAt2 i (by rw [hlen2] at hi; omega) q hq
          · intro x hx y hy
            rcases allocPools_insert_pool ps2 s.allocated p.ip n.toNat with hcase | hcase
            · rw [hcase] at hy
              exact (htry y (hald y hy)).1 x hx
            · rw [hcase] at hy
              rcases List.mem_cons.mp hy with rfl | hy'
              · rw [overlap_comm]
                exact hdisj2 x hx
              · exact (htry y (hald y hy')).1 x hx
          · rcases allocPools_insert_pool ps2 s.allocated p.ip n.toNat with hcase | hcase
            · rw [hcase, allocPools_congr ⟨ps2, s.allocated⟩ s rfl]
              exact hal4
            · rw [hcase]
              rw [List.pairwise_cons]
              constructor
              · intro y hy
                exact (htry y (hald y hy)).2
              · rw [allocPools_congr ⟨ps2, s.allocated⟩ s rfl]
                exact hal4
          · intro ip' L' hmemk
            rcases mem_keyInsert _ _ _ hmemk with heq | hmemk'
            · injection heq with e1 e2
              subst e1
              subst e2
              exact ⟨hp4, hpw, hfn, ht31⟩
            · exact h5 ip' L' hmemk'
          · intro ip' m hmemk
            rcases mem_keyInsert _ _ _ hmemk with heq | hmemk'
            · exact absurd heq (by simp)
            · exact h6 ip' m hmemk'

/-! ### Claims C3, C4, C9 -/

/-- Claim C3.  The claim states that `Add(a, n, dst)` writes the big-endian
base-256 representation of `value(a) + n` (mod 2^32) into `dst`, with `n`
added once at the least-significant byte and carry propagated in base 256.
The code does none of this: on the failing input `a = dst = [0,0,0,0]`,
`n = 1`, it adds `n` at every byte and divides the carry by 0xFF instead of
0x100, writing `[1,1,1,1]` instead of `[0,0,0,1]`, and then the `uint32`
loop counter wraps and the loop panics on an out-of-range access. -/
theorem add_failing_input_evaluation :
    goAdd [0, 0, 0, 0] 1 [0, 0, 0, 0] = AddRes.crash [1, 1, 1, 1] ∧
      AddRes.crash [1, 1, 1, 1] ≠ AddRes.ok [0, 0, 0, 1] := by
  constructor
  · rfl
  · decide

/-- Claim C4.  The claim states that the loop of `Add(a, n, dst)` accesses
only indices inside the bounds of `a` and `dst` and terminates after exactly
`len(a)` iterations.  In fact for every non-empty `a` (and `dst = a`, the
shape of every call site) the unsigned counter makes the guard `i >= 0`
vacuous: after the in-bounds iterations the counter wraps to `2^32 - 1` and
the loop performs an out-of-range access instead of terminating, modelled by
the `crash` result.  Shown here on the concrete input `a = [0,0,0,0]`,
`n = 0`. -/
theorem add_loop_overruns :
    goAdd [0, 0, 0, 0] 0 [0, 0, 0, 0] = AddRes.crash [0, 0, 0, 0] ∧
      ∀ d, AddRes.crash [0, 0, 0, 0] ≠ AddRes.ok d := by
  constructor
  · rfl
  · intro d
    simp

/-- Claim C9.  Applying FlipBit twice at a valid index `i < 8 * len(s)`
restores the byte sequence: FlipBit toggles the bit at byte `i / 8`, bit
position `7 - i % 8`, and XOR with a fixed mask is an involution. -/
theorem flipBit_involution (s : Bytes) (i : Nat) (h : i < 8 * s.length) :
    flipBit i (flipBit i s) = s :=
  flipBit_flipBit s i h

/-- Witness for C9 at a concrete input. -/
theorem flipBit_involution_witness :
    flipBit 10 (flipBit 10 [172, 16, 0, 0]) = [172, 16, 0, 0] :=
  flipBit_involution [172, 16, 0, 0] 10 (by decide)

/-! ### Allocated-set helper lemmas -/

theorem keyMem_keyInsert_self (l : List Key) (k : Key) : keyMem (keyInsert l k) k = true := by
  by_cases h : k ∈ l
  · simp [keyMem, keyInsert, h]
  · simp [keyMem, keyInsert, h]

theorem keyMem_keyInsert_mono (l : List Key) (k k' : Key) (h : keyMem l k = true) :
    keyMem (keyInsert l k') k = true := by
  have hm : k ∈ l := by simpa [keyMem] using h
  by_cases hc : k' ∈ l
  · simpa [keyMem, keyInsert, hc] using hm
  · simp [keyMem, keyInsert, hc, List.mem_cons]
    exact Or.inr hm

/-! ### Claim C2 -/

/-- Claim C2.  The claim states that `RequestAddress(pool, nil)` on a
leased IPv4 pool returns the smallest unallocated address above the network
address, never the broadcast address, and exhausts after `2^(32-L) - 2`
grants.  In fact the very first increment `bytop.Add(ip, 1, ip)` — executed
before the scan loop is ever entered — panics on every input (see
`goAdd_crash`), so the automatic path never returns an address at all. -/
theorem requestAddress_auto_always_crashes (s : AllocState) (pool : Pool)
    (hmem : keyMem s.allocated (poolKey pool) = true) (hlen : pool.ip.length = 4) :
    requestAddress s pool none = Out.crash := by
  unfold requestAddress
  obtain ⟨d, hd⟩ := goAdd_crash pool.ip 1 pool.ip
  simp [hmem, hlen, hd]

/-- Witness for C2: the failing input, a leased pool 172.16.0.0/24 with an
otherwise empty allocator. -/
theorem requestAddress_auto_always_crashes_witness :
    requestAddress ⟨List.replicate 32 [], [Key.pool [172, 16, 0, 0] 24]⟩
      ⟨[172, 16, 0, 0], [255, 255, 255, 0]⟩ none = Out.crash :=
  requestAddress_auto_always_crashes _ _ (by decide) (by decide)

/-! ### Claim C5: counterexample -/

/-- Counterexample to claim C5 as stated.  AddPool never checks overlap
against other slots: adding 10.0.0.0/16 and then 10.0.0.0/24 (both
accepted) reaches a state whose free structure holds two overlapping
pools. -/
theorem reachable_overlap_counterexample :
    Reach (⟨((List.replicate 32 []).set 16 [⟨[10, 0, 0, 0], [255, 255, 0, 0]⟩]).set 24
        [⟨[10, 0, 0, 0], [255, 255, 255, 0]⟩], []⟩ : AllocState) ∧
      ¬ NoOverlap (⟨((List.replicate 32 []).set 16 [⟨[10, 0, 0, 0], [255, 255, 0, 0]⟩]).set 24
        [⟨[10, 0, 0, 0], [255, 255, 255, 0]⟩], []⟩ : AllocState) := by
  constructor
  · exact @Reach.addPool_step
      (⟨(List.replicate 32 []).set 16 [⟨[10, 0, 0, 0], [255, 255, 0, 0]⟩], []⟩ : AllocState) _
      ⟨[10, 0, 0, 0], [255, 255, 255, 0]⟩
      (@Reach.addPool_step initState _ ⟨[10, 0, 0, 0], [255, 255, 0, 0]⟩ Reach.init
        (by decide) (by decide))
      (by decide) (by decide)
  · decide

/-! ### Claim C6 -/

/-- Counterexample to claim C6 as stated.  In the reachable state where
172.16.0.0/16 has been leased, releasing the non-normalized pool value
172.16.0.1/16 fails with PoolNotAllocated even though the normalized
pool's key is in the allocated set: ReleasePool keys on the argument as
given, without normalizing. -/
theorem releasePool_raw_key_counterexample :
    Reach (⟨List.replicate 32 [], [Key.pool [172, 16, 0, 0] 16]⟩ : AllocState) ∧
      normalizePool ⟨[172, 16, 0, 1], [255, 255, 0, 0]⟩
        = some ⟨[172, 16, 0, 0], [255, 255, 0, 0]⟩ ∧
      keyMem [Key.pool [172, 16, 0, 0] 16] (poolKey ⟨[172, 16, 0, 0], [255, 255, 0, 0]⟩)
        = true ∧
      releasePool ⟨List.replicate 32 [], [Key.pool [172, 16, 0, 0] 16]⟩
          ⟨[172, 16, 0, 1], [255, 255, 0, 0]⟩
        = Out.err AErr.poolNotAllocated ⟨List.replicate 32 [], [Key.pool [172, 16, 0, 0] 16]⟩ := by
  refine ⟨?_, by decide, by decide, by decide⟩
  exact @Reach.requestPool_step
    (⟨(List.replicate 32 []).set 16 [⟨[172, 16, 0, 0], [255, 255, 0, 0]⟩], []⟩ : AllocState) _
    16 none
    (@Reach.addPool_step initState _ ⟨[172, 16, 0, 0], [255, 255, 0, 0]⟩ Reach.init
      (by decide) (by decide))
    (by intro q hq; simp at hq) (by decide)

/-- Amended claim C6: ReleasePool fails with PoolNotAllocated exactly when
the key of the pool argument as given (not normalized) is absent from the
allocated set — an absent key is never silently ignored — and otherwise
removes that key and reinserts the pool through addPoolNoLock (whose own
result is discarded). -/
theorem releasePool_spec (s : AllocState) (p : Pool) :
    (keyMem s.allocated (poolKey p) = false →
      releasePool s p = Out.err AErr.poolNotAllocated s) ∧
    (keyMem s.allocated (poolKey p) = true →
      ∀ s', (addPoolNoLock s p).state? = some s' →
        releasePool s p = Out.ok () ⟨s'.pools, keyRemove s'.allocated (poolKey p)⟩) := by
  constructor
  · intro h
    unfold releasePool
    simp [h]
  · intro h s' hs'
    cases ha : addPoolNoLock s p with
    | ok v st =>
      rw [ha] at hs'
      simp only [Out.state?, Option.some.injEq] at hs'
      subst hs'
      simp [releasePool, h, ha]
    | err e st =>
      rw [ha] at hs'
      simp only [Out.state?, Option.some.injEq] at hs'
      subst hs'
      simp [releasePool, h, ha]
    | crash => rw [ha] at hs'; simp [Out.state?] at hs'
    | spin => rw [ha] at hs'; simp [Out.state?] at hs' 

/-- Witness for the amended C6: releasing the leased pool 172.16.0.0/16
with the exact key succeeds and returns the pool to the free structure. -/
theorem releasePool_spec_witness :
    releasePool ⟨List.replicate 32 [], [Key.pool [172, 16, 0, 0] 16]⟩
        ⟨[172, 16, 0, 0], [255, 255, 0, 0]⟩
      = Out.ok () ⟨(List.replicate 32 []).set 16 [⟨[172, 16, 0, 0], [255, 255, 0, 0]⟩], []⟩ :=
  (releasePool_spec ⟨List.replicate 32 [], [Key.pool [172, 16, 0, 0] 16]⟩
      ⟨[172, 16, 0, 0], [255, 255, 0, 0]⟩).2 (by decide)
    ⟨(List.replicate 32 []).set 16 [⟨[172, 16, 0, 0], [255, 255, 0, 0]⟩],
      [Key.pool [172, 16, 0, 0] 16]⟩ (by decide)

/-! ### Claim C7 -/

/-- Counterexample to claim C7 as stated.  Pool-key exclusivity does not
survive AddPool: after 172.16.0.0/16 is leased (its key allocated and
never released), AddPool accepts the same range again, and a second
RequestPool(16) succeeds and yields the identical key. -/
theorem requestPool_duplicate_key_counterexample :
    Reach (⟨(List.replicate 32 []).set 16 [⟨[172, 16, 0, 0], [255, 255, 0, 0]⟩],
        [Key.pool [172, 16, 0, 0] 16]⟩ : AllocState) ∧
      keyMem [Key.pool [172, 16, 0, 0] 16] (Key.pool [172, 16, 0, 0] 16) = true ∧
      poolKey ⟨[172, 16, 0, 0], [255, 255, 0, 0]⟩ = Key.pool [172, 16, 0, 0] 16 ∧
      requestPool ⟨(List.replicate 32 []).set 16 [⟨[172, 16, 0, 0], [255, 255, 0, 0]⟩],
          [Key.pool [172, 16, 0, 0] 16]⟩ 16 none
        = Out.ok ⟨[172, 16, 0, 0], [255, 255, 0, 0]⟩
            ⟨List.replicate 32 [], [Key.pool [172, 16, 0, 0] 16]⟩ := by
  refine ⟨?_, by decide, by decide, by decide⟩
  exact @Reach.addPool_step
    (⟨List.replicate 32 [], [Key.pool [172, 16, 0, 0] 16]⟩ : AllocState) _
    ⟨[172, 16, 0, 0], [255, 255, 0, 0]⟩
    (@Reach.requestPool_step
      (⟨(List.replicate 32 []).set 16 [⟨[172, 16, 0, 0], [255, 255, 0, 0]⟩], []⟩ : AllocState) _
      16 none
      (@Reach.addPool_step initState _ ⟨[172, 16, 0, 0], [255, 255, 0, 0]⟩ Reach.init
        (by decide) (by decide))
      (by intro q hq; simp at hq) (by decide))
    (by decide) (by decide)

/-- Amended claim C7: exclusivity holds for address keys.  After
`RequestAddress(pool, ip)` succeeds for a specific ip, repeating the
identical call fails with AddressUnavailable (and this persists until a
release removes the key); the analogous guarantee for pool keys can be
defeated by AddPool re-adding the leased range, as the counterexample
shows. -/
theorem requestAddress_exclusivity (s : AllocState) (pool : Pool) (ip v : Bytes)
    (s' : AllocState) (h : requestAddress s pool (some ip) = Out.ok v s') :
    requestAddress s' pool (some ip) = Out.err AErr.addressUnavailable s' := by
  by_cases hm : keyMem s.allocated (poolKey pool) = true
  · by_cases hc : (goContains pool ip && !keyMem s.allocated (addrKey ip)) = true
    · simp only [requestAddress, hm, hc, if_true, Out.ok.injEq] at h
      obtain ⟨hv, hs⟩ := h
      subst hs
      have hk : keyMem (keyInsert s.allocated (addrKey ip)) (addrKey ip) = true :=
        keyMem_keyInsert_self _ _
      simp [requestAddress, keyMem_keyInsert_mono _ _ _ hm, hk]
    · simp [requestAddress, hm, hc] at h
  · simp [requestAddress, hm] at h

/-- Witness for the amended C7: granting 172.16.0.5 from a leased
172.16.0.0/24 succeeds once; the identical request then fails. -/
theorem requestAddress_exclusivity_witness :
    requestAddress ⟨List.replicate 32 [],
        [Key.addr [172, 16, 0, 5], Key.pool [172, 16, 0, 0] 24]⟩
      ⟨[172, 16, 0, 0], [255, 255, 255, 0]⟩ (some [172, 16, 0, 5])
      = Out.err AErr.addressUnavailable
          ⟨List.replicate 32 [], [Key.addr [172, 16, 0, 5], Key.pool [172, 16, 0, 0] 24]⟩ :=
  requestAddress_exclusivity ⟨List.replicate 32 [], [Key.pool [172, 16, 0, 0] 24]⟩
    ⟨[172, 16, 0, 0], [255, 255, 255, 0]⟩ [172, 16, 0, 5] [172, 16, 0, 5]
    ⟨List.replicate 32 [], [Key.addr [172, 16, 0, 5], Key.pool [172, 16, 0, 0] 24]⟩
    (by decide)

/-! ### Claim C8: counterexample -/

/-- Counterexample to claim C8 as stated.  For prefix length 31 — inside
the claimed range [0, 31] — the halves produced by Split are /32 pools,
and adding such a half to an empty allocator crashes (slot index 32 of the
32-slot array) instead of yielding a free entry. -/
theorem split31_addPool_crash :
    splitPool ⟨[0, 0, 0, 0], cidrMask 31⟩
      = some (⟨[0, 0, 0, 0], cidrMask 32⟩, ⟨[0, 0, 0, 1], cidrMask 32⟩) ∧
      addPool initState ⟨[0, 0, 0, 0], cidrMask 32⟩ = Out.crash := by
  decide

/-! ### Claim C10: counterexample -/

/-- Counterexample to claim C10 as stated.  A /32 pool passes AddPool's
4-byte-mask check, and addPoolNoLock then reads `a.pools[32]` in the
32-slot array: out of range. -/
theorem addPool_mask32_crash :
    maskSize [255, 255, 255, 255] = some 32 ∧ initState.pools.length = 32 ∧
      addPool initState ⟨[1, 2, 3, 4], [255, 255, 255, 255]⟩ = Out.crash := by
  decide

/-! ### Claim C5: the amended invariant -/

theorem stateWf_init : StateWf initState := by
  refine ⟨by decide, by decide, ?_, ?_, ?_, ?_⟩
  · intro x hx y hy
    simp [allocPools, initState] at hy
  · exact List.Pairwise.nil
  · intro ip L h
    simp [initState] at h
  · intro ip m
    simp [initState]

theorem goodReach_stateWf : ∀ s, GoodReach s → StateWf s := by
  intro s h
  induction h with
  | init => exact stateWf_init
  | addPool_step hr harg hlen hex hov hstep ih =>
    obtain ⟨L, hms, hL⟩ := hex
    exact stateWf_addPool _ _ L ih harg hlen hms hL hov _ hstep
  | requestPool_step hr hq hstep ih =>
    exact stateWf_requestPool _ _ _ ih _ hstep
  | releasePool_step hr harg hstep ih =>
    exact stateWf_releasePool _ _ ih _ hstep
  | requestAddress_step hr harg hips hstep ih =>
    exact stateWf_requestAddress _ _ _ ih _ hstep
  | releaseAddress_step hr hw hstep ih =>
    exact stateWf_releaseAddress _ _ ih _ hstep

/-- Claim C5, amended.  The claim states that in every state reachable by
any operation sequence no two free pools overlap; as stated it is false
(`reachable_overlap_counterexample`), because AddPool never checks overlap.
Under the proviso that every AddPool argument is a well-formed IPv4 CIDR
pool of prefix length at most 31 that overlaps no currently free or
allocated pool (`GoodReach` — the other four operations are unrestricted),
no two pools stored anywhere in the free-list structure, including pools
in different prefix-length slots, have overlapping address ranges. -/
theorem goodReach_no_overlap (s : AllocState) (h : GoodReach s) : NoOverlap s :=
  (goodReach_stateWf s h).2.1

/-- Witness for the amended C5 at a concrete reachable state: the
allocator after AddPool(10.0.0.0/16). -/
theorem goodReach_no_overlap_witness :
    NoOverlap ⟨(List.replicate 32 ([] : List Pool)).set 16
      [⟨[10, 0, 0, 0], [255, 255, 0, 0]⟩], []⟩ :=
  goodReach_no_overlap _
    (@GoodReach.addPool_step initState _ ⟨[10, 0, 0, 0], [255, 255, 0, 0]⟩
      GoodReach.init (by decide) (by decide) ⟨16, by decide, by decide⟩
      (by decide) (by decide))

end Ipam
